import Mathlib

/-!
# Search engine of the sliding-block solver (`src/ai/ai.c`)

A shallow embedding of `ai.c`: the state record `gate_t`, `duplicate_state`,
the FIFO frontier, the driver `find_solution`, the encoder `packMap` /
`getPackedSize` and the predicate `winning_state`.

Conventions of the embedding.

* A C `int` is an `Int`; a loop `for (i = 0; i < n; i++)` runs over
  `List.range n.toNat`; the C quotient `a / b` is `Int.tdiv a b` (0 for a zero
  divisor, where C leaves the result open).  Counters are not wrapped.
* Every allocation is taken to succeed.
* A C string is the list of its characters before the terminating NUL.
  Reading the position just behind the last character yields the NUL.
* A pointer whose value the program compares or copies is a pair of the
  address and the object it points to.  Allocation follows the block model:
  every `malloc` / `calloc` / `strdup` returns an address that was never
  handed out before, taken from a counter that is threaded through the code.
* `gate.h`, `utils.h` and the move engine are not part of `ai.c`; what is
  needed of them is either a parameter (`attempt_move`, `calcBits`) or a
  definition marked as modelled from the specification.
-/

namespace Ai

/-! ## Data model -/

/-- The C type `char *`: address of the block and the string stored in it. -/
structure cstr where
  addr : Nat
  val : List Char
deriving DecidableEq, Repr

/-- The C type `char **` as used for `map` and `map_save`: address of the
row-pointer block and the rows it leads to. -/
structure cmap where
  addr : Nat
  rows : List (List Char)
deriving DecidableEq, Repr

/-- The record `gate_t` of `gate.h`, with the fields `ai.c` reads or writes.
`soln` is `none` for the NULL pointer; `piece_x` and `piece_y` are the arrays
stored inside the record. -/
structure gate_t where
  map : cmap
  map_save : cmap
  buffer : Nat
  lines : Int
  num_chars_map : Int
  num_pieces : Int
  piece_x : List Int
  piece_y : List Int
  player_x : Int
  player_y : Int
  soln : Option cstr
  base_path : Nat
deriving DecidableEq, Repr

def UP : Char := 'u'
def DOWN : Char := 'd'
def LEFT : Char := 'l'
def RIGHT : Char := 'r'

def directions : List Char := [UP, DOWN, LEFT, RIGHT]

def invertedDirections : List Char := [DOWN, UP, RIGHT, LEFT]

def pieceNames : List Char := ['0', '1', '2', '3', '4', '5', '6', '7', '8', '9']

/-- The NUL character that ends a C string. -/
def NUL : Char := Char.ofNat 0

/-- Read `s[j]` of a C string: a character of the string, or the NUL behind it. -/
def char_at (s : List Char) (j : Nat) : Char := s.getD j NUL

/-- Read `m[i]` of a row table. -/
def row_at (m : cmap) (i : Nat) : List Char := m.rows.getD i []

/-- Read `a[i]` of an `int` array of the record. -/
def int_at (a : List Int) (i : Nat) : Int := a.getD i 0

/-- The test of line 363: the cell is `'G'` or lies in `'I'..'Q'`. -/
def is_target (c : Char) : Bool := c == 'G' || (c >= 'I' && c <= 'Q')

/-! ## `winning_state` -/

/-- Lines 360-369.  The outer loop runs over the first `lines` rows, the inner
loop over the positions of the `map_save` row up to its NUL; a target cell in
`map` at such a position makes the function return `false`.  The embedding is
exact when no `map` row is shorter than the `map_save` row with the same index,
as in every state made by the loader or by `duplicate_state`; for a shorter
`map` row the C loop reads bytes behind the end of that row, which read as NUL
here. -/
def winning_state (gate : gate_t) : Bool :=
  (List.range gate.lines.toNat).all fun i =>
    (List.range (row_at gate.map_save i).length).all fun j =>
      !(is_target (char_at (row_at gate.map i) j))

/-- The winning predicate in the words of the specification:
no cell of `map` is `'G'` or one of `'I'..'Q'`. -/
def winning_spec (gate : gate_t) : Prop :=
  ∀ r c : Nat, r < gate.map.rows.length → c < (row_at gate.map r).length →
    ¬ (char_at (row_at gate.map r) c = 'G' ∨
       ('I' ≤ char_at (row_at gate.map r) c ∧ char_at (row_at gate.map r) c ≤ 'Q'))

/-! ## `duplicate_state` and the comparison of two records -/

/-- The string behind `soln`; the NULL pointer reads as the empty string. -/
def soln_str (gate : gate_t) : List Char :=
  match gate.soln with
  | some s => s.val
  | none => []

/-- Lines 40-59, started with the allocation counter `next`; returns the clone
and the counter after the call.  The four kinds of allocation are, in order:
the record (`next`), the row-pointer block (`next + 1`), one `strdup` per row
(`next + 2 + i`) and the `strdup` of the path (`next + 2 + lines`). -/
def duplicate_state (gate : gate_t) (next : Nat) : gate_t × Nat :=
  let lines := gate.lines.toNat
  let duplicate : gate_t :=
    { gate with
      map := { addr := next + 1, rows := (List.range lines).map (row_at gate.map) }
      soln := some { addr := next + 2 + lines, val := soln_str gate } }
  (duplicate, next + 3 + lines)

/-- The test `memcmp(newNode, n, sizeof(gate_t)) == 0` of line 226: the bytes of
two records agree when every scalar, every array stored in the record and every
pointer VALUE agree.  The strings and rows behind the pointers are not part of
the record and are not looked at. -/
def memcmp_gate (a b : gate_t) : Bool :=
  a.map.addr == b.map.addr && a.map_save.addr == b.map_save.addr &&
  a.buffer == b.buffer && a.lines == b.lines &&
  a.num_chars_map == b.num_chars_map && a.num_pieces == b.num_pieces &&
  a.piece_x == b.piece_x && a.piece_y == b.piece_y &&
  a.player_x == b.player_x && a.player_y == b.player_y &&
  a.soln.map cstr.addr == b.soln.map cstr.addr && a.base_path == b.base_path

/-! ## The frontier and the driver -/

/-- The variables of `find_solution` that change while the loop runs: the
allocation counter, the queue from `queue_head` to `queue_tail`, and the three
counters. -/
structure search_t where
  next : Nat
  queue : List gate_t
  dequeued : Int
  enqueued : Int
  duplicatedNodes : Int
deriving DecidableEq, Repr

/-- Lines 126-141 on the queue as a list: the node (one allocation) is linked
behind `queue_tail`, or becomes head and tail of an empty queue. -/
def enqueue_state (stateToEnqueue : gate_t) (st : search_t) : search_t :=
  { st with next := st.next + 1, queue := st.queue ++ [stateToEnqueue] }

/-- The body of the inner loop, lines 222-244, for parent `n`, piece index
`piece` and direction index `dir`. -/
def try_move (attempt_move : gate_t → Char → Char → gate_t) (n : gate_t)
    (st : search_t) (piece dir : Nat) : search_t :=
  let d := duplicate_state n st.next
  let newNode := attempt_move d.1 (pieceNames.getD piece NUL) (directions.getD dir NUL)
  let st1 : search_t := { st with next := d.2, enqueued := st.enqueued + 1 }
  if memcmp_gate newNode n then
    { st1 with duplicatedNodes := st1.duplicatedNodes + 1 }
  else
    let newSoln : cstr :=
      { addr := st1.next
        val := soln_str newNode ++ [pieceNames.getD piece NUL, directions.getD dir NUL] }
    enqueue_state { newNode with soln := some newSoln } { st1 with next := st1.next + 1 }

/-- The two nested loops of lines 219-246: pieces `0 .. numPieces - 1`, and for
each piece the four entries of `directions`. -/
def expand (attempt_move : gate_t → Char → Char → gate_t) (numPieces : Int)
    (n : gate_t) (st : search_t) : search_t :=
  (List.range numPieces.toNat).foldl
    (fun acc piece => (List.range 4).foldl (fun acc2 dir => try_move attempt_move n acc2 piece dir) acc)
    st

/-- What `find_solution` prints (lines 250-281), together with the flag
`has_won` and the queue as the loop left it. -/
structure report_t where
  soln : List Char
  has_won : Bool
  dequeued : Int
  enqueued : Int
  duplicatedNodes : Int
  memoryUsage : Int
  num_pieces : Int
  steps : Nat
  emptySpaces : Int
  w : Int
  frontier : List gate_t
deriving DecidableEq, Repr

/-- Lines 268-277: the blanks of `map_save`. -/
def count_empty (init_data : gate_t) : Int :=
  ((List.range init_data.lines.toNat).map
    fun i => ((row_at init_data.map_save i).count ' ' : Int)).sum

/-- The statistics block for the final values of the loop variables. -/
def make_report (init_data : gate_t) (soln : List Char) (has_won : Bool)
    (st : search_t) : report_t :=
  { soln := soln
    has_won := has_won
    dequeued := st.dequeued
    enqueued := st.enqueued
    duplicatedNodes := st.duplicatedNodes
    memoryUsage := 0
    num_pieces := init_data.num_pieces
    steps := soln.length / 2
    emptySpaces := count_empty init_data
    w := init_data.num_pieces + 1
    frontier := st.queue }

/-- One round of the `while` loop, lines 197-248.  `Sum.inl` is the exit of the
loop (empty queue, or `break` on a winning state) with the path to print and
`has_won`; `Sum.inr` is the state before the next round. -/
def loop_iter (attempt_move : gate_t → Char → Char → gate_t) (numPieces : Int)
    (st : search_t) : (List Char × Bool × search_t) ⊕ search_t :=
  match st.queue with
  | [] => Sum.inl ([], false, st)
  | n :: rest =>
    let st1 : search_t := { st with queue := rest, dequeued := st.dequeued + 1 }
    if winning_state n then
      Sum.inl (soln_str n, true, { st1 with next := st1.next + 1 })
    else
      Sum.inr (expand attempt_move numPieces n st1)

/-- The `while` loop with a bound on the number of rounds; `none` when the
bound is used up before the loop exits. -/
def search_loop (attempt_move : gate_t → Char → Char → gate_t) (numPieces : Int) :
    Nat → search_t → Option (List Char × Bool × search_t)
  | 0, _ => none
  | fuel + 1, st =>
    match loop_iter attempt_move numPieces st with
    | Sum.inl r => some r
    | Sum.inr st2 => search_loop attempt_move numPieces fuel st2

/-- The loop variables after `k` rounds, as long as the loop has not exited. -/
def frontier_after (attempt_move : gate_t → Char → Char → gate_t) (numPieces : Int) :
    Nat → search_t → Option search_t
  | 0, st => some st
  | k + 1, st =>
    match loop_iter attempt_move numPieces st with
    | Sum.inl _ => none
    | Sum.inr st2 => frontier_after attempt_move numPieces k st2

/-- The address stored in `soln`, 0 for NULL. -/
def soln_addr (gate : gate_t) : Nat :=
  match gate.soln with
  | some s => s.addr
  | none => 0

/-- The first address above those the initial board already uses. -/
def first_free (init_data : gate_t) : Nat :=
  1 + max (max init_data.map.addr init_data.map_save.addr)
        (max (max init_data.buffer init_data.base_path) (soln_addr init_data))

/-- Lines 146-194: the loop variables when the `while` loop is entered.  The key
buffer is allocated (its size plays no part in the search), `init_data->soln`
is set to NULL, the clone of the initial board is enqueued and counted. -/
def init_search (init_data : gate_t) : search_t :=
  let init0 : gate_t := { init_data with soln := none }
  let d := duplicate_state init0 (first_free init_data + 1)
  let st : search_t :=
    enqueue_state d.1 { next := d.2, queue := [], dequeued := 0, enqueued := 0, duplicatedNodes := 0 }
  { st with enqueued := st.enqueued + 1 }

/-- Lines 146-281 of `find_solution`, with `attempt_move` of the move engine as
a parameter and at most `fuel` rounds of the loop. -/
def find_solution (attempt_move : gate_t → Char → Char → gate_t) (init_data : gate_t)
    (fuel : Nat) : Option report_t :=
  match search_loop attempt_move init_data.num_pieces fuel (init_search init_data) with
  | none => none
  | some (soln, has_won, st) => some (make_report init_data soln has_won st)

/-! ## The encoder -/

/-- Modelled from the spec: `bitOn` of `utils.h` (not part of `ai.c`), one of the
bit helpers of the encoder: it sets the bit with index `bitIdx` of the key
buffer.  The buffer is modelled by its sequence of bits. -/
def bitOn (packedMap : List Bool) (bitIdx : Nat) : List Bool :=
  packedMap.set bitIdx true

/-- Modelled from the spec: `bitOff` of `utils.h` (not part of `ai.c`): it clears
the bit with index `bitIdx` of the key buffer. -/
def bitOff (packedMap : List Bool) (bitIdx : Nat) : List Bool :=
  packedMap.set bitIdx false

/-- The test `((v >> j) & 1) == 1` of lines 331, 339 and 347. -/
def bit_of (v : Int) (j : Nat) : Bool := (v >>> j) % 2 == 1

/-- One of the three inner loops of `packMap` (lines 330-337, 338-345,
346-353): bit `j` of `v` goes to position `bitIdx`, for `j = 0 .. nbits - 1`. -/
def pack_field (v : Int) (nbits : Int) (s : List Bool × Nat) : List Bool × Nat :=
  (List.range nbits.toNat).foldl
    (fun acc j =>
      if bit_of v j then (bitOn acc.1 acc.2, acc.2 + 1) else (bitOff acc.1 acc.2, acc.2 + 1))
    s

/-- The body of the outer loop of `packMap` for piece `i`. -/
def pack_piece (gate : gate_t) (pBits hBits wBits : Int) (s : List Bool × Nat) (i : Nat) :
    List Bool × Nat :=
  pack_field (int_at gate.piece_x i) wBits
    (pack_field (int_at gate.piece_y i) hBits (pack_field (i : Int) pBits s))

/-- Lines 324-355, with `calcBits` of `utils.h` as a parameter. -/
def packMap (calcBits : Int → Int) (gate : gate_t) (packedMap : List Bool) : List Bool :=
  let pBits := calcBits gate.num_pieces
  let hBits := calcBits gate.lines
  let wBits := calcBits (Int.tdiv gate.num_chars_map gate.lines)
  ((List.range gate.num_pieces.toNat).foldl (pack_piece gate pBits hBits wBits) (packedMap, 0)).1

/-- Lines 312-319, with `calcBits` of `utils.h` as a parameter. -/
def getPackedSize (calcBits : Int → Int) (gate : gate_t) : Int :=
  let pBits := calcBits gate.num_pieces
  let hBits := calcBits gate.lines
  let wBits := calcBits (Int.tdiv gate.num_chars_map gate.lines)
  let atomSize := pBits + hBits + wBits
  let bitCount := atomSize * gate.num_pieces
  bitCount

/-! ## A move engine for concrete runs -/

/-- Write `c` to cell `(x, y)` of a grid. -/
def set_cell (rows : List (List Char)) (x y : Nat) (c : Char) : List (List Char) :=
  rows.set y ((rows.getD y []).set x c)

/-- Modelled from the spec: `attempt_move` of the move engine (not part of
`ai.c`).  The label is resolved to a piece index below `num_pieces`; the target
cell is one step away (`u` and `d` change the row, `l` and `r` the column); a
target cell outside the grid (`lines` rows of `num_chars_map / lines` columns)
or holding anything but a blank or a target letter leaves the state as it is;
otherwise the vacated cell is restored from `map_save`, the new cell takes the
label and the position of the piece is updated.  The path is extended by the
caller, so `soln` is left alone. -/
def attempt_move (state : gate_t) (piece_label direction : Char) : gate_t :=
  let i := pieceNames.indexOf piece_label
  if i < pieceNames.length ∧ (i : Int) < state.num_pieces then
    let px := int_at state.piece_x i
    let py := int_at state.piece_y i
    let step : Option (Int × Int) :=
      if direction = UP then some (0, -1)
      else if direction = DOWN then some (0, 1)
      else if direction = LEFT then some (-1, 0)
      else if direction = RIGHT then some (1, 0)
      else none
    match step with
    | none => state
    | some (dx, dy) =>
      let nx := px + dx
      let ny := py + dy
      if 0 ≤ nx ∧ 0 ≤ ny ∧ ny < state.lines ∧ nx < Int.tdiv state.num_chars_map state.lines then
        let cell := char_at (row_at state.map ny.toNat) nx.toNat
        if cell = ' ' ∨ is_target cell = true then
          let restored := char_at (row_at state.map_save py.toNat) px.toNat
          let rows1 := set_cell state.map.rows px.toNat py.toNat restored
          let rows2 := set_cell rows1 nx.toNat ny.toNat piece_label
          { state with
            map := { state.map with rows := rows2 }
            piece_x := state.piece_x.set i nx
            piece_y := state.piece_y.set i ny }
        else state
      else state
  else state

/-! ## Notions used to state the properties of the search -/

/-- What a state holds apart from addresses and the path: both grids, the
geometry, and the positions of the pieces and of the player. -/
structure board_t where
  map : List (List Char)
  map_save : List (List Char)
  lines : Int
  num_chars_map : Int
  num_pieces : Int
  piece_x : List Int
  piece_y : List Int
  player_x : Int
  player_y : Int
deriving DecidableEq, Repr

/-- The board of a state. -/
def board (g : gate_t) : board_t :=
  { map := g.map.rows
    map_save := g.map_save.rows
    lines := g.lines
    num_chars_map := g.num_chars_map
    num_pieces := g.num_pieces
    piece_x := g.piece_x
    piece_y := g.piece_y
    player_x := g.player_x
    player_y := g.player_y }

/-- The row table `map` has exactly `lines` rows. -/
def well_formed (g : gate_t) : Prop := g.map.rows.length = g.lines.toNat

instance (g : gate_t) : Decidable (well_formed g) := by
  unfold well_formed; infer_instance

/-- The assumptions on the move engine: it leaves `soln` alone, it keeps the
number of rows in step with `lines`, and the board it returns is determined by
the board it is given. -/
structure engine_ok (attempt_move : gate_t → Char → Char → gate_t) : Prop where
  soln_kept : ∀ g l d, (attempt_move g l d).soln = g.soln
  shape_kept : ∀ g l d, well_formed g → well_formed (attempt_move g l d)
  board_fun : ∀ g h l d, board g = board h → board (attempt_move g l d) = board (attempt_move h l d)

/-- Apply a sequence of (label, direction) moves, first move first. -/
def replay (attempt_move : gate_t → Char → Char → gate_t) (g : gate_t) :
    List (Char × Char) → gate_t
  | [] => g
  | m :: ms => replay attempt_move (attempt_move g m.1 m.2) ms

/-- Read a path string as a sequence of (label, direction) pairs. -/
def parse_path : List Char → List (Char × Char)
  | l :: d :: rest => (l, d) :: parse_path rest
  | _ => []

/-- Write a sequence of moves as a path string. -/
def path_str : List (Char × Char) → List Char
  | [] => []
  | m :: ms => m.1 :: m.2 :: path_str ms

/-- The moves tried on an expanded state, in the order of lines 219-220. -/
def moves (numPieces : Int) : List (Char × Char) :=
  (List.range numPieces.toNat).flatMap fun piece =>
    (List.range 4).map fun dir => (pieceNames.getD piece NUL, directions.getD dir NUL)

/-- The one-move extensions of a sequence, in the order of `M`. -/
def extend (M : List (Char × Char)) (w : List (Char × Char)) : List (List (Char × Char)) :=
  M.map fun m => w ++ [m]

/-- All sequences of `k` moves from `M`, in lexicographic order. -/
def words (M : List (Char × Char)) : Nat → List (List (Char × Char))
  | 0 => [[]]
  | k + 1 => (words M k).flatMap (extend M)

/-- The move-path format: even length, a label `'0'..'9'` at every even
position and one of `u`, `d`, `l`, `r` at every odd position. -/
def path_format_ok (s : List Char) : Prop :=
  s.length % 2 = 0 ∧
  ∀ k, 2 * k + 1 < s.length →
    ('0' ≤ char_at s (2 * k) ∧ char_at s (2 * k) ≤ '9') ∧
    (char_at s (2 * k + 1) = 'u' ∨ char_at s (2 * k + 1) = 'd' ∨
     char_at s (2 * k + 1) = 'l' ∨ char_at s (2 * k + 1) = 'r')

/-- The successor that `try_move` links into the queue when the comparison of
line 226 reports a difference: the moved clone with the extended path. -/
def successor (attempt_move : gate_t → Char → Char → gate_t) (n : gate_t) (next : Nat)
    (piece dir : Nat) : gate_t :=
  let d := duplicate_state n next
  let newNode := attempt_move d.1 (pieceNames.getD piece NUL) (directions.getD dir NUL)
  { newNode with
    soln := some
      { addr := d.2
        val := soln_str newNode ++ [pieceNames.getD piece NUL, directions.getD dir NUL] } }

/-- The path pointer of `g` is non-NULL and was handed out before the allocation
counter reached `next`. -/
def alive (next : Nat) (g : gate_t) : Prop := ∃ s, g.soln = some s ∧ s.addr < next

/-- The index pairs (piece, direction) in the order of the two nested loops. -/
def index_pairs (numPieces : Int) : List (Nat × Nat) :=
  (List.range numPieces.toNat).flatMap fun piece => (List.range 4).map fun dir => (piece, dir)

/-- The move named by an index pair. -/
def move_of (pd : Nat × Nat) : Char × Char :=
  (pieceNames.getD pd.1 NUL, directions.getD pd.2 NUL)

/-- Board and path of a state. -/
def summary (g : gate_t) : board_t × List Char := (board g, soln_str g)

/-- Board and path that belong to a sequence of moves played from `init`. -/
def target (attempt_move : gate_t → Char → Char → gate_t) (init : gate_t)
    (w : List (Char × Char)) : board_t × List Char :=
  (board (replay attempt_move init w), path_str w)

/-- The shape of the queue during the search: for some level `k`, with the
sequences of `k` moves split as `pre ++ post`, the queue holds the states of
`post` followed by the states of the one-move extensions of `pre`; no sequence
in `pre` and no shorter sequence leads to a winning state; every queued state
has a live path pointer. -/
def bfs_inv (attempt_move : gate_t → Char → Char → gate_t) (init : gate_t)
    (M : List (Char × Char)) (st : search_t) : Prop :=
  ∃ k pre post, words M k = pre ++ post ∧
    st.queue.map summary = (post ++ pre.flatMap (extend M)).map (target attempt_move init) ∧
    (∀ w ∈ pre, winning_state (replay attempt_move init w) = false) ∧
    (∀ j, j < k → ∀ w ∈ words M j, winning_state (replay attempt_move init w) = false) ∧
    (∀ g ∈ st.queue, alive st.next g)

/-- What the exit of the loop says about the printed path: either the loop
stopped on a winning state whose path is a sequence `w` of some level `k`, no
sequence before `w` in that level and no shorter sequence being winning, or the
queue ran empty and the path is the empty string. -/
def exit_facts (attempt_move : gate_t → Char → Char → gate_t) (init : gate_t)
    (M : List (Char × Char)) (res : List Char × Bool × search_t) : Prop :=
  (res.2.1 = true ∧ ∃ k pre w post, words M k = pre ++ w :: post ∧ res.1 = path_str w ∧
      winning_state (replay attempt_move init w) = true ∧
      (∀ v ∈ pre, winning_state (replay attempt_move init v) = false) ∧
      (∀ j, j < k → ∀ v ∈ words M j, winning_state (replay attempt_move init v) = false)) ∨
  (res.2.1 = false ∧ res.1 = [] ∧ res.2.2.queue = [])

/-- The bound of the first inner loop of `packMap`. -/
def pBits (calcBits : Int → Int) (gate : gate_t) : Nat := (calcBits gate.num_pieces).toNat

/-- The bound of the second inner loop of `packMap`. -/
def hBits (calcBits : Int → Int) (gate : gate_t) : Nat := (calcBits gate.lines).toNat

/-- The bound of the third inner loop of `packMap`. -/
def wBits (calcBits : Int → Int) (gate : gate_t) : Nat :=
  (calcBits (Int.tdiv gate.num_chars_map gate.lines)).toNat

/-- The number of bits written per piece. -/
def atomBits (calcBits : Int → Int) (gate : gate_t) : Nat :=
  pBits calcBits gate + hBits calcBits gate + wBits calcBits gate

/-- The bit that `packMap` writes at offset `r` of the block of piece `i`, for
field widths `p` (index), `h` (row) and the rest (column). -/
def atom_bit (gate : gate_t) (p h : Nat) (i r : Nat) : Bool :=
  if r < p then bit_of (i : Int) r
  else if r < p + h then bit_of (int_at gate.piece_y i) (r - p)
  else bit_of (int_at gate.piece_x i) (r - p - h)

/-- Bit `j` of the integer `v`. -/
def nth_bit (v : Int) (j : Nat) : Bool := decide (v / 2 ^ j % 2 = 1)

/-- Modelled from the spec: `calcBits` of `utils.h` (not part of `ai.c`), the
number of bits `⌈log2 n⌉`. -/
def calcBits_log (n : Int) : Int := (Nat.clog 2 n.toNat : Nat)

/-! ## Concrete boards -/

/-- A state from the rows of the grid, the rows of the saved grid, and the
positions of the pieces. -/
def mk_gate (rows save : List (List Char)) (num_pieces : Int) (piece_x piece_y : List Int) :
    gate_t :=
  { map := { addr := 1, rows := rows }
    map_save := { addr := 2, rows := save }
    buffer := 3
    lines := rows.length
    num_chars_map := (rows.length * (rows.headD []).length : Nat)
    num_pieces := num_pieces
    piece_x := piece_x
    piece_y := piece_y
    player_x := 0
    player_y := 0
    soln := none
    base_path := 4 }

/-- The one-row board `0G`: piece `'0'` next to the target. -/
def board_0G : gate_t := mk_gate [['0', 'G']] [[' ', 'G']] 1 [0] [0]

/-- The one-row board `0 G`: piece `'0'` two steps away from the target. -/
def board_0_G : gate_t := mk_gate [['0', ' ', 'G']] [[' ', ' ', 'G']] 1 [0] [0]

/-- The one-row board `0 #G`: piece `'0'` can step to and fro, the target is
behind a wall. -/
def board_walled : gate_t := mk_gate [['0', ' ', '#', 'G']] [[' ', ' ', '#', 'G']] 1 [0] [0]

/-- The board `0 #G` after piece `'0'` has stepped to the right. -/
def board_walled_right : gate_t :=
  mk_gate [[' ', '0', '#', 'G']] [[' ', ' ', '#', 'G']] 1 [1] [0]

/-- The map of `0 #G` with another saved grid of the same shape, another
position vector and a path. -/
def board_walled_alt : gate_t :=
  { board_walled with
    map_save := { addr := 7, rows := [['x', ' ', 'y', ' ']] }
    piece_x := [5]
    soln := some { addr := 8, val := ['0', 'r'] } }

/-- A queued state reduced to its path, its positions and the fields that enter
the key. -/
structure entry_t where
  path : List Char
  piece_x : List Int
  piece_y : List Int
  num_pieces : Int
  lines : Int
  num_chars_map : Int
deriving DecidableEq, Repr

/-- The entry with index `i` of the queue. -/
def queue_entry (st : search_t) (i : Nat) : Option entry_t :=
  st.queue[i]?.map fun g =>
    { path := soln_str g, piece_x := g.piece_x, piece_y := g.piece_y,
      num_pieces := g.num_pieces, lines := g.lines, num_chars_map := g.num_chars_map }

/-- The one-row board `0#G`: piece `'0'` stands between the edge and a wall and
cannot move, the target is behind the wall. -/
def board_stuck : gate_t := mk_gate [['0', '#', 'G']] [[' ', '#', 'G']] 1 [0] [0]

/-- Every cell of `map` is a wall or the label `'0'`, and the label occurs
exactly once. -/
def all_walls_but_piece (g : gate_t) : Prop :=
  (∀ row ∈ g.map.rows, ∀ c ∈ row, c = '#' ∨ c = '0') ∧
  (g.map.rows.map (List.count '0')).sum = 1

instance (g : gate_t) : Decidable (all_walls_but_piece g) := by
  unfold all_walls_but_piece; infer_instance

/-- The loop variables at the `break` of the first round. -/
def first_round_exit (init_data : gate_t) : search_t :=
  { (init_search init_data) with
    queue := []
    dequeued := 1
    next := (init_search init_data).next + 1 }

/-- The one-row board `0 `: a piece and a blank, no target. -/
def board_won : gate_t := mk_gate [['0', ' ']] [[' ', ' ']] 1 [0] [0]

/-- A 3 x 3 board of walls around piece `'0'`. -/
def board_all_walls : gate_t :=
  mk_gate [['#', '#', '#'], ['#', '0', '#'], ['#', '#', '#']]
    [['#', '#', '#'], ['#', ' ', '#'], ['#', '#', '#']] 1 [1] [1]

/-- The number of times line 223 calls `attempt_move` in one round of the loop:
none when the queue is empty or its head is winning, otherwise once for every
(piece, direction) pair of the two nested loops. -/
def calls_in_round (numPieces : Int) (st : search_t) : Nat :=
  match st.queue with
  | [] => 0
  | n :: _ => if winning_state n then 0 else (index_pairs numPieces).length

/-- The number of calls of `attempt_move` during the first `fuel` rounds of the
loop, up to its exit. -/
def attempt_calls (attempt_move : gate_t → Char → Char → gate_t) (numPieces : Int) :
    Nat → search_t → Nat
  | 0, _ => 0
  | fuel + 1, st =>
    calls_in_round numPieces st +
      match loop_iter attempt_move numPieces st with
      | Sum.inl _ => 0
      | Sum.inr st2 => attempt_calls attempt_move numPieces fuel st2

/-- The order of the index pairs: ascending piece index, and for one piece
ascending direction index (`u`, `d`, `l`, `r`). -/
def pair_lt (a b : Nat × Nat) : Prop := a.1 < b.1 ∨ (a.1 = b.1 ∧ a.2 < b.2)

instance (a b : Nat × Nat) : Decidable (pair_lt a b) := by
  unfold pair_lt; infer_instance

/-- The inner loop `pack_field` with a log: every bit index handed to `bitOn` or
`bitOff` is appended to the list carried along. -/
def pack_field_log (v : Int) (nbits : Int) (s : (List Bool × Nat) × List Nat) :
    (List Bool × Nat) × List Nat :=
  (List.range nbits.toNat).foldl
    (fun acc j =>
      if bit_of v j then ((bitOn acc.1.1 acc.1.2, acc.1.2 + 1), acc.2 ++ [acc.1.2])
      else ((bitOff acc.1.1 acc.1.2, acc.1.2 + 1), acc.2 ++ [acc.1.2]))
    s

/-- The body of the outer loop of `packMap`, with the log. -/
def pack_piece_log (gate : gate_t) (pBits hBits wBits : Int)
    (s : (List Bool × Nat) × List Nat) (i : Nat) : (List Bool × Nat) × List Nat :=
  pack_field_log (int_at gate.piece_x i) wBits
    (pack_field_log (int_at gate.piece_y i) hBits (pack_field_log (i : Int) pBits s))

/-- Lines 324-355 with the log: the buffer after the call and the bit indices
written, in the order of writing. -/
def packMap_log (calcBits : Int → Int) (gate : gate_t) (packedMap : List Bool) :
    List Bool × List Nat :=
  let pBits := calcBits gate.num_pieces
  let hBits := calcBits gate.lines
  let wBits := calcBits (Int.tdiv gate.num_chars_map gate.lines)
  let r := (List.range gate.num_pieces.toNat).foldl (pack_piece_log gate pBits hBits wBits)
    ((packedMap, 0), [])
  (r.1.1, r.2)

/-- The order of two moves: ascending piece index (the place of the label in
`pieceNames`), and for one piece the order of `directions`, `u < d < l < r`. -/
def move_lt (a b : Char × Char) : Prop :=
  pieceNames.indexOf a.1 < pieceNames.indexOf b.1 ∨
  (pieceNames.indexOf a.1 = pieceNames.indexOf b.1 ∧
    directions.indexOf a.2 < directions.indexOf b.2)

instance (a b : Char × Char) : Decidable (move_lt a b) := by
  unfold move_lt; infer_instance

/-- The strict lexicographic order of two move sequences, compared move by move
from the first move on. -/
def path_lt : List (Char × Char) → List (Char × Char) → Prop
  | a :: v, b :: w => move_lt a b ∨ (a = b ∧ path_lt v w)
  | _, _ => False

/-- The lexicographic order of two move sequences. -/
def path_le (v w : List (Char × Char)) : Prop := v = w ∨ path_lt v w

/-- The 2 x 2 board with piece `'0'` in the upper left and the target in the
lower right corner. -/
def board_corner : gate_t :=
  mk_gate [['0', ' '], [' ', 'G']] [[' ', ' '], [' ', 'G']] 1 [0] [0]

/-- The record `struct qnode` of lines 117-120: the state it carries and the
address of the next node (`none` for NULL). -/
structure qnode where
  state : gate_t
  next : Option Nat

/-- The linked queue of lines 116-141: the nodes by address and the two static
pointers `queue_head` and `queue_tail` (`none` for NULL). -/
structure queue_t where
  nodes : Nat → Option qnode
  queue_head : Option Nat
  queue_tail : Option Nat

/-- Both pointers NULL, no node allocated. -/
def empty_queue : queue_t :=
  { nodes := fun _ => none, queue_head := none, queue_tail := none }

/-- Write a node to an address. -/
def store_node (nodes : Nat → Option qnode) (a : Nat) (nd : qnode) : Nat → Option qnode :=
  fun x => if x = a then some nd else nodes x

/-- Free the node at an address. -/
def free_node (nodes : Nat → Option qnode) (a : Nat) : Nat → Option qnode :=
  fun x => if x = a then none else nodes x

/-- Lines 126-141 on the linked queue; `node` is what `malloc` returned, `none`
for a failed allocation, in which case nothing is done. -/
def enqueue_node (stateToEnqueue : gate_t) (node : Option Nat) (q : queue_t) : queue_t :=
  match node with
  | none => q
  | some a =>
    let nodes1 := store_node q.nodes a { state := stateToEnqueue, next := none }
    match q.queue_tail with
    | some t =>
      { nodes :=
          match nodes1 t with
          | some nd => store_node nodes1 t { nd with next := some a }
          | none => nodes1
        queue_head := q.queue_head
        queue_tail := some a }
    | none => { nodes := nodes1, queue_head := some a, queue_tail := some a }

/-- Lines 199-205 on the linked queue: the state of the head node, and the queue
after the head has been unlinked and freed; `none` when `queue_head` is NULL. -/
def dequeue_node (q : queue_t) : Option (gate_t × queue_t) :=
  match q.queue_head with
  | none => none
  | some h =>
    match q.nodes h with
    | none => none
    | some nd =>
      some (nd.state,
        { nodes := free_node q.nodes h
          queue_head := nd.next
          queue_tail := if nd.next = none then none else q.queue_tail })

/-- A call of `enqueue_state` or a removal of the head. -/
inductive queue_op where
  | enq (s : gate_t)
  | deq

/-- Run a sequence of operations from a queue, an allocation counter and the
list of the states dequeued so far.  A removal is attempted only when
`queue_head` is not NULL, as the loop of `find_solution` does. -/
def run_ops : List queue_op → queue_t × Nat × List gate_t → queue_t × Nat × List gate_t
  | [], x => x
  | queue_op.enq s :: ops, x =>
    run_ops ops (enqueue_node s (some x.2.1) x.1, x.2.1 + 1, x.2.2)
  | queue_op.deq :: ops, x =>
    match dequeue_node x.1 with
    | none => run_ops ops x
    | some r => run_ops ops (r.2, x.2.1, x.2.2 ++ [r.1])

/-- The states handed to `enqueue_state`, in the order of the calls. -/
def enqueued_states : List queue_op → List gate_t
  | [] => []
  | queue_op.enq s :: ops => s :: enqueued_states ops
  | queue_op.deq :: ops => enqueued_states ops

/-- The frontier in the words of the specification: a list of states, `enqueue`
appends at the end, `dequeue` takes the first state or finds the list empty.
The pair holds the list and the states dequeued so far. -/
def run_list : List queue_op → List gate_t × List gate_t → List gate_t × List gate_t
  | [], x => x
  | queue_op.enq s :: ops, x => run_list ops (x.1 ++ [s], x.2)
  | queue_op.deq :: ops, x =>
    match x.1 with
    | [] => run_list ops x
    | s :: l => run_list ops (l, x.2 ++ [s])

/-- Following the `next` links from pointer `p` one meets exactly the nodes
`cells` (address and state), and then NULL. -/
def chain (nodes : Nat → Option qnode) : Option Nat → List (Nat × gate_t) → Prop
  | p, [] => p = none
  | p, c :: cs => p = some c.1 ∧ ∃ nx, nodes c.1 = some { state := c.2, next := nx } ∧
      chain nodes nx cs

/-- The linked queue holds the states `l` in this order: the nodes from
`queue_head` carry them, `queue_tail` is the last node, and the addresses are
distinct addresses handed out before `next`. -/
def queue_inv (q : queue_t) (next : Nat) (l : List gate_t) : Prop :=
  ∃ cells : List (Nat × gate_t), cells.map Prod.snd = l ∧
    chain q.nodes q.queue_head cells ∧
    q.queue_tail = cells.getLast?.map Prod.fst ∧
    (cells.map Prod.fst).Nodup ∧ ∀ c ∈ cells, c.1 < next

/-! ## The winning predicate -/

theorem winning_state_iff (gate : gate_t) :
    winning_state gate = true ↔
      ∀ i, i < gate.lines.toNat → ∀ j, j < (row_at gate.map_save i).length →
        is_target (char_at (row_at gate.map i) j) = false := by
  simp [winning_state, List.all_eq_true, List.mem_range]

theorem is_target_iff (c : Char) :
    is_target c = true ↔ (c = 'G' ∨ ('I' ≤ c ∧ c ≤ 'Q')) := by
  simp [is_target]

/-- C6: for a state whose `map` has `lines` rows, each as long as the row of
`map_save` with the same index, `winning_state` returns true exactly when no
cell of `map` holds `'G'` or a letter in `'I'..'Q'`. -/
theorem winning_state_eq_spec (gate : gate_t)
    (hrows : gate.map.rows.length = gate.lines.toNat)
    (hlen : ∀ i, i < gate.lines.toNat → (row_at gate.map i).length = (row_at gate.map_save i).length) :
    winning_state gate = true ↔ winning_spec gate := by
  rw [winning_state_iff]
  unfold winning_spec
  constructor
  · intro h r c hr hc
    rw [hrows] at hr
    have := h r hr c (by rw [← hlen r hr]; exact hc)
    rw [← is_target_iff]
    simp [this]
  · intro h i hi j hj
    have := h i j (by rw [hrows]; exact hi) (by rw [hlen i hi]; exact hj)
    rw [← is_target_iff] at this
    simpa using this

/-- The hypotheses of `winning_state_eq_spec` hold for the board `0G`, which is
not winning. -/
theorem winning_state_eq_spec_witness :
    (board_0G.map.rows.length = board_0G.lines.toNat ∧
      ∀ i, i < board_0G.lines.toNat →
        (row_at board_0G.map i).length = (row_at board_0G.map_save i).length) ∧
    (winning_state board_0G = true ↔ winning_spec board_0G) :=
  ⟨⟨by decide, by decide⟩, winning_state_eq_spec board_0G (by decide) (by decide)⟩

/-- C7: two states with the same `lines` and the same `map` contents, each with
`map_save` rows as long as its `map` rows, get the same answer from
`winning_state`, whatever the contents of their `map_save`, their piece
positions, player position and path are. -/
theorem winning_state_pure (a b : gate_t) (hlines : a.lines = b.lines)
    (hmap : a.map.rows = b.map.rows)
    (ha : ∀ i, i < a.lines.toNat →
      (row_at a.map i).length = (row_at a.map_save i).length)
    (hb : ∀ i, i < b.lines.toNat →
      (row_at b.map i).length = (row_at b.map_save i).length) :
    winning_state a = winning_state b := by
  have hsave : ∀ i, i < a.lines.toNat →
      (row_at a.map_save i).length = (row_at b.map_save i).length := by
    intro i hi
    rw [← ha i hi, ← hb i (by rw [← hlines]; exact hi)]
    simp only [row_at, hmap]
  rw [Bool.eq_iff_iff, winning_state_iff, winning_state_iff]
  simp only [row_at, hmap, ← hlines]
  constructor
  · intro h i hi j hj
    exact h i hi j (by have := hsave i hi; simp only [row_at] at this; rw [this]; exact hj)
  · intro h i hi j hj
    exact h i hi j (by have := hsave i hi; simp only [row_at] at this; rw [← this]; exact hj)

/-- The hypotheses of `winning_state_pure` hold for the board `0 #G` and a state
with the same map but another saved grid of the same shape, other positions and
another path. -/
theorem winning_state_pure_witness :
    (board_walled.lines = board_walled_alt.lines ∧
      board_walled.map.rows = board_walled_alt.map.rows ∧
      (∀ i, i < board_walled.lines.toNat →
        (row_at board_walled.map i).length = (row_at board_walled.map_save i).length) ∧
      (∀ i, i < board_walled_alt.lines.toNat →
        (row_at board_walled_alt.map i).length =
          (row_at board_walled_alt.map_save i).length) ∧
      board_walled.map_save ≠ board_walled_alt.map_save ∧
      board_walled.piece_x ≠ board_walled_alt.piece_x ∧
      board_walled.soln ≠ board_walled_alt.soln) ∧
    winning_state board_walled = winning_state board_walled_alt :=
  ⟨⟨by decide, by decide, by decide, by decide, by decide, by decide, by decide⟩,
   winning_state_pure board_walled board_walled_alt (by decide) (by decide) (by decide)
     (by decide)⟩

/-! ## One expansion -/

theorem board_duplicate (g : gate_t) (k : Nat) (h : well_formed g) :
    board (duplicate_state g k).1 = board g := by
  unfold well_formed at h
  simp only [board, duplicate_state]
  congr 1
  apply List.ext_getElem
  · simp [h]
  · intro i h1 h2
    simp [row_at, List.getD_eq_getElem?_getD, List.getElem?_eq_getElem h2]

theorem soln_str_duplicate (g : gate_t) (k : Nat) :
    soln_str (duplicate_state g k).1 = soln_str g := by
  simp [soln_str, duplicate_state]

theorem well_formed_duplicate (g : gate_t) (k : Nat) : well_formed (duplicate_state g k).1 := by
  simp [well_formed, duplicate_state]

theorem memcmp_gate_alive (a n : gate_t) (k j : Nat) (v : List Char)
    (ha : a.soln = some ⟨k + j, v⟩) (hn : alive k n) : memcmp_gate a n = false := by
  obtain ⟨s, hs, hlt⟩ := hn
  have : ¬ (k + j = s.addr) := by omega
  simp [memcmp_gate, ha, hs, this]

theorem try_move_unfold (am : gate_t → Char → Char → gate_t) (n : gate_t) (st : search_t)
    (p d : Nat) :
    try_move am n st p d =
      if memcmp_gate (am (duplicate_state n st.next).1 (move_of (p, d)).1 (move_of (p, d)).2) n then
        { st with next := (duplicate_state n st.next).2, enqueued := st.enqueued + 1,
                  duplicatedNodes := st.duplicatedNodes + 1 }
      else
        { st with next := (duplicate_state n st.next).2 + 2, enqueued := st.enqueued + 1,
                  queue := st.queue ++ [successor am n st.next p d] } := by
  simp only [try_move, move_of, successor, enqueue_state]

theorem try_move_alive (am : gate_t → Char → Char → gate_t) (hs : ∀ g l d, (am g l d).soln = g.soln)
    (n : gate_t) (st : search_t) (p d : Nat) (hn : alive st.next n) :
    try_move am n st p d =
        { st with next := (duplicate_state n st.next).2 + 2, enqueued := st.enqueued + 1,
                  queue := st.queue ++ [successor am n st.next p d] } := by
  rw [try_move_unfold]
  have : memcmp_gate (am (duplicate_state n st.next).1 (move_of (p, d)).1 (move_of (p, d)).2) n = false := by
    apply memcmp_gate_alive _ n st.next (2 + n.lines.toNat) (soln_str n) _ hn
    rw [hs]
    simp [duplicate_state, Nat.add_assoc]
  simp [this]

theorem expand_eq_foldl (am : gate_t → Char → Char → gate_t) (np : Int) (n : gate_t)
    (st : search_t) :
    expand am np n st =
      (index_pairs np).foldl (fun acc pd => try_move am n acc pd.1 pd.2) st := by
  unfold expand index_pairs
  generalize List.range np.toNat = ps
  induction ps generalizing st with
  | nil => rfl
  | cons p ps ih =>
    simp only [List.foldl_cons, List.flatMap_cons, List.foldl_append, List.foldl_map]
    exact ih _

theorem moves_eq_map (np : Int) : moves np = (index_pairs np).map move_of := by
  unfold moves index_pairs move_of
  generalize List.range np.toNat = ps
  induction ps with
  | nil => rfl
  | cons p ps ih =>
    rw [List.flatMap_cons, List.flatMap_cons, List.map_append, List.map_map, ih]
    rfl

theorem mem_index_pairs (np : Int) (pd : Nat × Nat) :
    pd ∈ index_pairs np ↔ pd.1 < np.toNat ∧ pd.2 < 4 := by
  obtain ⟨p, d⟩ := pd
  simp [index_pairs, List.mem_flatMap, List.mem_range]

/-- The successors that an expansion appends, whatever the comparison of line 226 says. -/
theorem foldl_try_move_queue (am : gate_t → Char → Char → gate_t) (n : gate_t)
    (ps : List (Nat × Nat)) (st : search_t) :
    ∃ added, (ps.foldl (fun acc pd => try_move am n acc pd.1 pd.2) st).queue = st.queue ++ added ∧
      ∀ g ∈ added, ∃ k pd, pd ∈ ps ∧ g = successor am n k pd.1 pd.2 := by
  induction ps generalizing st with
  | nil => exact ⟨[], by simp⟩
  | cons pd ps ih =>
    obtain ⟨added, hq, hall⟩ := ih (try_move am n st pd.1 pd.2)
    rw [List.foldl_cons, hq, try_move_unfold]
    split
    · refine ⟨added, rfl, ?_⟩
      intro g hg
      obtain ⟨k, pd2, h1, h2⟩ := hall g hg
      exact ⟨k, pd2, List.mem_cons_of_mem _ h1, h2⟩
    · refine ⟨successor am n st.next pd.1 pd.2 :: added, by simp, ?_⟩
      intro g hg
      rcases List.mem_cons.1 hg with h | h
      · exact ⟨st.next, pd, List.mem_cons_self _ _, h⟩
      · obtain ⟨k, pd2, h1, h2⟩ := hall g h
        exact ⟨k, pd2, List.mem_cons_of_mem _ h1, h2⟩

theorem alive_mono {k j : Nat} {g : gate_t} (h : alive k g) (hkj : k ≤ j) : alive j g := by
  obtain ⟨s, hs, hlt⟩ := h
  exact ⟨s, hs, by omega⟩

theorem alive_successor (am : gate_t → Char → Char → gate_t) (n : gate_t) (k p d : Nat) :
    alive ((duplicate_state n k).2 + 2) (successor am n k p d) := by
  refine ⟨_, rfl, ?_⟩
  simp

/-- With a live parent every move is linked into the queue. -/
theorem foldl_try_move_alive (am : gate_t → Char → Char → gate_t)
    (hs : ∀ g l d, (am g l d).soln = g.soln) (n : gate_t)
    (ps : List (Nat × Nat)) (st : search_t) (hn : alive st.next n)
    (hq : ∀ g ∈ st.queue, alive st.next g) :
    let r := ps.foldl (fun acc pd => try_move am n acc pd.1 pd.2) st
    (∃ added, r.queue = st.queue ++ added ∧
      List.Forall₂ (fun pd g => ∃ k, g = successor am n k pd.1 pd.2) ps added) ∧
    st.next ≤ r.next ∧ (∀ g ∈ r.queue, alive r.next g) ∧
    r.dequeued = st.dequeued ∧ r.enqueued = st.enqueued + ps.length ∧
    r.duplicatedNodes = st.duplicatedNodes := by
  induction ps generalizing st with
  | nil => simp; exact hq
  | cons pd ps ih =>
    have hstep := try_move_alive am hs n st pd.1 pd.2 hn
    have hle : st.next ≤ (try_move am n st pd.1 pd.2).next := by
      rw [hstep]; simp [duplicate_state]; omega
    have hq2 : ∀ g ∈ (try_move am n st pd.1 pd.2).queue, alive (try_move am n st pd.1 pd.2).next g := by
      intro g hg
      rw [hstep] at hg ⊢
      simp only [List.mem_append, List.mem_singleton] at hg
      rcases hg with h | h
      · exact alive_mono (hq g h) (by simp [duplicate_state]; omega)
      · rw [h]; exact alive_successor am n st.next pd.1 pd.2
    obtain ⟨⟨added, ha, hf⟩, h1, h2, h3, h4, h5⟩ := ih (try_move am n st pd.1 pd.2) (alive_mono hn hle) hq2
    simp only [List.foldl_cons]
    refine ⟨⟨successor am n st.next pd.1 pd.2 :: added, ?_, ?_⟩, by omega, h2, ?_, ?_, ?_⟩
    · rw [ha, hstep]; simp
    · exact List.Forall₂.cons ⟨st.next, rfl⟩ hf
    · rw [h3, hstep]
    · rw [h4, hstep]; simp; omega
    · rw [h5, hstep]

theorem replay_append (am : gate_t → Char → Char → gate_t) (g : gate_t)
    (w1 w2 : List (Char × Char)) :
    replay am g (w1 ++ w2) = replay am (replay am g w1) w2 := by
  induction w1 generalizing g with
  | nil => rfl
  | cons m ms ih => simp [replay, ih]

theorem path_str_append (w1 w2 : List (Char × Char)) :
    path_str (w1 ++ w2) = path_str w1 ++ path_str w2 := by
  induction w1 with
  | nil => rfl
  | cons m ms ih => simp [path_str, ih]

theorem parse_path_str (w : List (Char × Char)) : parse_path (path_str w) = w := by
  induction w with
  | nil => rfl
  | cons m ms ih => simp [path_str, parse_path, ih]

theorem length_path_str (w : List (Char × Char)) : (path_str w).length = 2 * w.length := by
  induction w with
  | nil => rfl
  | cons m ms ih => simp [path_str, ih]; omega

theorem well_formed_replay (am : gate_t → Char → Char → gate_t) (hok : engine_ok am)
    (g : gate_t) (w : List (Char × Char)) (h : well_formed g) : well_formed (replay am g w) := by
  induction w generalizing g with
  | nil => exact h
  | cons m ms ih => exact ih _ (hok.shape_kept g m.1 m.2 h)

theorem well_formed_of_board {a b : gate_t} (h : board a = board b) (hb : well_formed b) :
    well_formed a := by
  have h1 : a.map.rows = b.map.rows := congrArg board_t.map h
  have h2 : a.lines = b.lines := congrArg board_t.lines h
  unfold well_formed at *
  rw [h1, h2]; exact hb

theorem winning_state_congr {a b : gate_t} (h : board a = board b) :
    winning_state a = winning_state b := by
  have h1 : a.map.rows = b.map.rows := congrArg board_t.map h
  have h2 : a.lines = b.lines := congrArg board_t.lines h
  have h3 : a.map_save.rows = b.map_save.rows := congrArg board_t.map_save h
  simp [winning_state, row_at, h1, h2, h3]

theorem summary_successor (am : gate_t → Char → Char → gate_t) (hok : engine_ok am)
    (n : gate_t) (hn : well_formed n) (k : Nat) (pd : Nat × Nat) :
    summary (successor am n k pd.1 pd.2) =
      (board (am n (move_of pd).1 (move_of pd).2),
       soln_str n ++ [(move_of pd).1, (move_of pd).2]) := by
  have hb := hok.board_fun _ _ (move_of pd).1 (move_of pd).2 (board_duplicate n k hn)
  have hs : soln_str (am (duplicate_state n k).1 (move_of pd).1 (move_of pd).2) = soln_str n := by
    unfold soln_str
    rw [hok.soln_kept]
    simp [duplicate_state, soln_str]
  unfold summary
  rw [← hb, ← hs]
  rfl

theorem target_snoc (am : gate_t → Char → Char → gate_t) (init : gate_t)
    (w : List (Char × Char)) (m : Char × Char) :
    target am init (w ++ [m]) =
      (board (am (replay am init w) m.1 m.2), path_str w ++ [m.1, m.2]) := by
  simp [target, replay_append, path_str_append, replay, path_str]

theorem summary_successor_target (am : gate_t → Char → Char → gate_t) (hok : engine_ok am)
    (init : gate_t) (hinit : well_formed init) (n : gate_t) (w : List (Char × Char))
    (hn : summary n = target am init w) (k : Nat) (pd : Nat × Nat) :
    summary (successor am n k pd.1 pd.2) = target am init (w ++ [move_of pd]) := by
  have hb : board n = board (replay am init w) := congrArg Prod.fst hn
  have hs : soln_str n = path_str w := congrArg Prod.snd hn
  have hwf : well_formed n := well_formed_of_board hb (well_formed_replay am hok init w hinit)
  rw [summary_successor am hok n hwf, target_snoc, hs, hok.board_fun _ _ _ _ hb]

theorem successors_summary (am : gate_t → Char → Char → gate_t) (hok : engine_ok am)
    (init : gate_t) (hinit : well_formed init) (n : gate_t) (w : List (Char × Char))
    (hn : summary n = target am init w) (ps : List (Nat × Nat)) (added : List gate_t)
    (h : List.Forall₂ (fun pd g => ∃ k, g = successor am n k pd.1 pd.2) ps added) :
    added.map summary = (extend (ps.map move_of) w).map (target am init) := by
  induction h with
  | nil => rfl
  | cons hab _ ih =>
    obtain ⟨k, rfl⟩ := hab
    simp only [List.map_cons, extend] at ih ⊢
    rw [ih, summary_successor_target am hok init hinit n w hn]

theorem expand_summary (am : gate_t → Char → Char → gate_t) (hok : engine_ok am)
    (init : gate_t) (hinit : well_formed init) (np : Int) (n : gate_t) (w : List (Char × Char))
    (hn : summary n = target am init w) (st : search_t) (hal : alive st.next n)
    (hq : ∀ g ∈ st.queue, alive st.next g) :
    (expand am np n st).queue.map summary =
        st.queue.map summary ++ (extend (moves np) w).map (target am init) ∧
    (∀ g ∈ (expand am np n st).queue, alive (expand am np n st).next g) ∧
    (expand am np n st).dequeued = st.dequeued ∧
    (expand am np n st).enqueued = st.enqueued + (index_pairs np).length ∧
    (expand am np n st).duplicatedNodes = st.duplicatedNodes := by
  rw [expand_eq_foldl, moves_eq_map]
  obtain ⟨⟨added, ha, hf⟩, _, h2, h3, h4, h5⟩ :=
    foldl_try_move_alive am hok.soln_kept n (index_pairs np) st hal hq
  refine ⟨?_, h2, h3, h4, h5⟩
  rw [ha, List.map_append, successors_summary am hok init hinit n w hn _ _ hf]

/-! ## The modelled move engine meets the assumptions -/

theorem attempt_move_soln (g : gate_t) (l d : Char) : (attempt_move g l d).soln = g.soln := by
  unfold attempt_move
  simp only
  split
  · split
    · rfl
    · split
      · split <;> rfl
      · rfl
  · rfl

theorem length_set_cell (rows : List (List Char)) (x y : Nat) (c : Char) :
    (set_cell rows x y c).length = rows.length := by
  simp [set_cell]

theorem attempt_move_shape (g : gate_t) (l d : Char) (h : well_formed g) :
    well_formed (attempt_move g l d) := by
  unfold attempt_move
  simp only
  split
  · split
    · exact h
    · split
      · split
        · unfold well_formed at *
          simp only [length_set_cell]
          exact h
        · exact h
      · exact h
  · exact h

theorem attempt_move_board_fun (g h : gate_t) (l d : Char) (hb : board g = board h) :
    board (attempt_move g l d) = board (attempt_move h l d) := by
  have h1 : g.map.rows = h.map.rows := congrArg board_t.map hb
  have h2 : g.map_save.rows = h.map_save.rows := congrArg board_t.map_save hb
  have h3 : g.lines = h.lines := congrArg board_t.lines hb
  have h4 : g.num_chars_map = h.num_chars_map := congrArg board_t.num_chars_map hb
  have h5 : g.num_pieces = h.num_pieces := congrArg board_t.num_pieces hb
  have h6 : g.piece_x = h.piece_x := congrArg board_t.piece_x hb
  have h7 : g.piece_y = h.piece_y := congrArg board_t.piece_y hb
  have h8 : g.player_x = h.player_x := congrArg board_t.player_x hb
  have h9 : g.player_y = h.player_y := congrArg board_t.player_y hb
  unfold attempt_move
  simp only [row_at, h1, h2, h3, h4, h5, h6, h7]
  split
  · split
    · exact hb
    · split
      · split
        · simp only [board, h1, h2, h3, h4, h5, h6, h7, h8, h9]
        · exact hb
      · exact hb
  · exact hb

theorem attempt_move_ok : engine_ok attempt_move :=
  ⟨attempt_move_soln, attempt_move_shape, attempt_move_board_fun⟩

/-! ## The queue holds the levels of the move tree -/

theorem bfs_inv_init (am : gate_t → Char → Char → gate_t) (init : gate_t)
    (hinit : well_formed init) (M : List (Char × Char)) :
    bfs_inv am init M (init_search init) := by
  refine ⟨0, [], [[]], rfl, ?_, by simp, by simp, ?_⟩
  · have hwf : well_formed { init with soln := none } := hinit
    have hb := board_duplicate { init with soln := none } (first_free init + 1) hwf
    simp only [init_search, enqueue_state, List.nil_append, List.map_cons, List.map_nil,
      List.flatMap_nil, List.append_nil, summary, target, replay, path_str]
    rw [hb, soln_str_duplicate]
    rfl
  · intro g hg
    simp only [init_search, enqueue_state, List.nil_append, List.mem_singleton] at hg
    subst hg
    refine ⟨_, rfl, ?_⟩
    simp only [init_search, enqueue_state, duplicate_state]
    omega

/-- The head of a non-empty queue belongs to a sequence `w` of the current level. -/
theorem bfs_inv_head (am : gate_t → Char → Char → gate_t) (init : gate_t)
    (M : List (Char × Char)) (st : search_t) (n : gate_t) (rest : List gate_t)
    (hinv : bfs_inv am init M st) (hq : st.queue = n :: rest) :
    ∃ k pre w post, words M k = pre ++ w :: post ∧
      summary n = target am init w ∧
      rest.map summary = (post ++ pre.flatMap (extend M)).map (target am init) ∧
      (∀ v ∈ pre, winning_state (replay am init v) = false) ∧
      (∀ j, j < k → ∀ v ∈ words M j, winning_state (replay am init v) = false) := by
  obtain ⟨k, pre, post, hw, hmap, hpre, hlow, _⟩ := hinv
  rw [hq] at hmap
  cases post with
  | nil =>
    rw [List.append_nil] at hw
    rw [List.nil_append, ← hw] at hmap
    have hnext : words M (k + 1) = (words M k).flatMap (extend M) := rfl
    rw [← hnext] at hmap
    cases hlev : words M (k + 1) with
    | nil => rw [hlev] at hmap; simp at hmap
    | cons w ws =>
      rw [hlev] at hmap
      simp only [List.map_cons, List.cons.injEq] at hmap
      refine ⟨k + 1, [], w, ws, by simp [hlev], hmap.1, by simpa using hmap.2, by simp, ?_⟩
      intro j hj v hv
      rcases Nat.lt_succ_iff_lt_or_eq.1 hj with h | h
      · exact hlow j h v hv
      · subst h; rw [hw] at hv; exact hpre v hv
  | cons w post =>
    simp only [List.cons_append, List.map_cons, List.cons.injEq] at hmap
    exact ⟨k, pre, w, post, hw, hmap.1, hmap.2, hpre, hlow⟩

theorem bfs_inv_step (am : gate_t → Char → Char → gate_t) (hok : engine_ok am)
    (init : gate_t) (hinit : well_formed init) (np : Int) (st st2 : search_t)
    (hinv : bfs_inv am init (moves np) st)
    (hstep : loop_iter am np st = Sum.inr st2) :
    bfs_inv am init (moves np) st2 := by
  unfold loop_iter at hstep
  split at hstep
  · exact absurd hstep (by simp)
  · rename_i n rest hq
    obtain ⟨k, pre, w, post, hw, hn, hrest, hpre, hlow⟩ :=
      bfs_inv_head am init (moves np) st n rest hinv hq
    have halive := hinv.choose_spec.choose_spec.choose_spec.2.2.2.2
    split at hstep
    · exact absurd hstep (by simp)
    · rename_i hwin
      simp only [Sum.inr.injEq] at hstep
      have hnwin : winning_state (replay am init w) = false := by
        rw [← winning_state_congr (congrArg Prod.fst hn)]
        simpa using hwin
      have hal_n : alive st.next n := halive n (by rw [hq]; exact List.mem_cons_self _ _)
      have hal_rest : ∀ g ∈ rest, alive st.next g :=
        fun g hg => halive g (by rw [hq]; exact List.mem_cons_of_mem _ hg)
      obtain ⟨h1, h2, _⟩ := expand_summary am hok init hinit np n w hn
        { st with queue := rest, dequeued := st.dequeued + 1 } hal_n hal_rest
      rw [hstep] at h1 h2
      refine ⟨k, pre ++ [w], post, by simp [hw], ?_, ?_, hlow, h2⟩
      · rw [h1]
        simp only [hrest, List.map_append, List.flatMap_append, List.flatMap_cons,
          List.flatMap_nil, List.append_nil, List.append_assoc]
      · intro v hv
        rcases List.mem_append.1 hv with h | h
        · exact hpre v h
        · rw [List.mem_singleton.1 h]; exact hnwin

theorem bfs_inv_exit (am : gate_t → Char → Char → gate_t)
    (init : gate_t) (np : Int) (st : search_t) (res : List Char × Bool × search_t)
    (hinv : bfs_inv am init (moves np) st)
    (hexit : loop_iter am np st = Sum.inl res) :
    exit_facts am init (moves np) res := by
  unfold loop_iter at hexit
  split at hexit
  · rename_i hq
    simp only [Sum.inl.injEq] at hexit
    subst hexit
    exact Or.inr ⟨rfl, rfl, hq⟩
  · rename_i n rest hq
    obtain ⟨k, pre, w, post, hw, hn, _, hpre, hlow⟩ :=
      bfs_inv_head am init (moves np) st n rest hinv hq
    split at hexit
    · rename_i hwin
      simp only [Sum.inl.injEq] at hexit
      subst hexit
      refine Or.inl ⟨rfl, k, pre, w, post, hw, congrArg Prod.snd hn, ?_, hpre, hlow⟩
      rw [← winning_state_congr (congrArg Prod.fst hn)]
      exact hwin
    · exact absurd hexit (by simp)

theorem search_loop_exit (am : gate_t → Char → Char → gate_t) (hok : engine_ok am)
    (init : gate_t) (hinit : well_formed init) (np : Int) (fuel : Nat) (st : search_t)
    (res : List Char × Bool × search_t)
    (hinv : bfs_inv am init (moves np) st)
    (hres : search_loop am np fuel st = some res) :
    exit_facts am init (moves np) res := by
  induction fuel generalizing st with
  | zero => simp [search_loop] at hres
  | succ fuel ih =>
    unfold search_loop at hres
    split at hres
    · rename_i r hr
      simp only [Option.some.injEq] at hres
      subst hres
      exact bfs_inv_exit am init np st r hinv hr
    · rename_i st2 hst2
      exact ih st2 (bfs_inv_step am hok init hinit np st st2 hinv hst2) hres

theorem find_solution_exit (am : gate_t → Char → Char → gate_t) (hok : engine_ok am)
    (init : gate_t) (hinit : well_formed init) (fuel : Nat) (r : report_t)
    (hr : find_solution am init fuel = some r) :
    ∃ res, exit_facts am init (moves init.num_pieces) res ∧
      r = make_report init res.1 res.2.1 res.2.2 := by
  unfold find_solution at hr
  split at hr
  · simp at hr
  · rename_i soln won st3 hloop
    simp only [Option.some.injEq] at hr
    exact ⟨(soln, won, st3),
      search_loop_exit am hok init hinit _ fuel _ _ (bfs_inv_init am init hinit _) hloop, hr.symm⟩

/-- C1: when `find_solution` stops on a winning state, replaying the printed
path from the initial board through `attempt_move` ends in a state that
satisfies `winning_state`. -/
theorem find_solution_path_sound (am : gate_t → Char → Char → gate_t) (hok : engine_ok am)
    (init : gate_t) (hinit : well_formed init) (fuel : Nat) (r : report_t)
    (hr : find_solution am init fuel = some r) (hwon : r.has_won = true) :
    winning_state (replay am init (parse_path r.soln)) = true := by
  obtain ⟨res, hfacts, rfl⟩ := find_solution_exit am hok init hinit fuel r hr
  rcases hfacts with ⟨_, k, pre, w, post, _, hs, hwin, _⟩ | ⟨hf, _⟩
  · simp only [make_report, hs, parse_path_str]
    exact hwin
  · simp [make_report, hf] at hwon

theorem mem_words_length (M : List (Char × Char)) (k : Nat) (w : List (Char × Char))
    (h : w ∈ words M k) : w.length = k := by
  induction k generalizing w with
  | zero => simp [words] at h; simp [h]
  | succ k ih =>
    simp only [words, List.mem_flatMap, extend, List.mem_map] at h
    obtain ⟨v, hv, m, _, rfl⟩ := h
    simp [ih v hv]

theorem mem_words_of_forall (M : List (Char × Char)) (w : List (Char × Char))
    (h : ∀ m ∈ w, m ∈ M) : w ∈ words M w.length := by
  induction w using List.reverseRecOn with
  | nil => simp [words]
  | append_singleton v m ih =>
    have hv : v ∈ words M v.length := ih (fun x hx => h x (List.mem_append_left _ hx))
    have hm : m ∈ M := h m (by simp)
    simp only [List.length_append, List.length_singleton, words, List.mem_flatMap, extend,
      List.mem_map]
    exact ⟨v, hv, m, hm, rfl⟩

theorem mem_moves (np : Int) (m : Char × Char)
    (hl : m.1 ∈ pieceNames.take np.toNat) (hd : m.2 ∈ directions) : m ∈ moves np := by
  rw [moves_eq_map, List.mem_map]
  obtain ⟨i, hi, hget⟩ := List.mem_iff_getElem.1 hl
  obtain ⟨j, hj, hgetj⟩ := List.mem_iff_getElem.1 hd
  rw [List.getElem_take] at hget
  rw [List.length_take] at hi
  have hj4 : j < 4 := hj
  refine ⟨(i, j), (mem_index_pairs np (i, j)).2 ⟨by omega, hj4⟩, ?_⟩
  have h1 : pieceNames.getD i NUL = m.1 := by
    rw [List.getD_eq_getElem?_getD, List.getElem?_eq_getElem (by omega)]; exact hget
  have h2 : directions.getD j NUL = m.2 := by
    rw [List.getD_eq_getElem?_getD, List.getElem?_eq_getElem hj]; exact hgetj
  simp only [move_of, h1, h2]

/-- C2: when `find_solution` prints a path of `steps` moves, no sequence of
fewer moves (label among the first `num_pieces` labels, direction one of
`u`, `d`, `l`, `r`) replayed from the initial board reaches a winning state. -/
theorem find_solution_min_moves (am : gate_t → Char → Char → gate_t) (hok : engine_ok am)
    (init : gate_t) (hinit : well_formed init) (fuel : Nat) (r : report_t)
    (hr : find_solution am init fuel = some r) (hwon : r.has_won = true)
    (ms : List (Char × Char))
    (hms : ∀ m ∈ ms, m.1 ∈ pieceNames.take init.num_pieces.toNat ∧ m.2 ∈ directions)
    (hshort : ms.length < r.steps) :
    winning_state (replay am init ms) = false := by
  obtain ⟨res, hfacts, rfl⟩ := find_solution_exit am hok init hinit fuel r hr
  rcases hfacts with ⟨_, k, pre, w, post, hw, hs, _, _, hlow⟩ | ⟨hf, _⟩
  · have hwk : w.length = k := mem_words_length _ k w (by rw [hw]; simp)
    have hsteps : (make_report init res.1 res.2.1 res.2.2).steps = k := by
      simp only [make_report, hs, length_path_str]; omega
    rw [hsteps] at hshort
    exact hlow ms.length hshort ms
      (mem_words_of_forall _ ms (fun m hm => mem_moves _ m (hms m hm).1 (hms m hm).2))
  · simp [make_report, hf] at hwon

/-! ## Concrete runs -/

theorem run_board_0_G :
    (find_solution attempt_move board_0_G 30).map (fun r => (r.soln, r.has_won, r.steps)) =
      some (['0', 'r', '0', 'r'], true, 2) := by
  decide

/-- The hypotheses of `find_solution_path_sound` hold for the modelled move
engine on the board `0 G`, where the search prints `0r0r`. -/
theorem find_solution_path_sound_witness :
    engine_ok attempt_move ∧ well_formed board_0_G ∧
    ∃ r, find_solution attempt_move board_0_G 30 = some r ∧ r.has_won = true ∧
      r.soln = ['0', 'r', '0', 'r'] ∧
      winning_state (replay attempt_move board_0_G (parse_path r.soln)) = true := by
  refine ⟨attempt_move_ok, by decide, ?_⟩
  have h := run_board_0_G
  cases hr : find_solution attempt_move board_0_G 30 with
  | none => rw [hr] at h; simp at h
  | some r =>
    rw [hr] at h
    simp only [Option.map_some', Option.some.injEq, Prod.mk.injEq] at h
    exact ⟨r, rfl, h.2.1, h.1,
      find_solution_path_sound attempt_move attempt_move_ok board_0_G (by decide) 30 r hr h.2.1⟩

/-- The hypotheses of `find_solution_min_moves` hold on the board `0 G`: the
search prints two moves, and the single move `0r` does not win. -/
theorem find_solution_min_moves_witness :
    engine_ok attempt_move ∧ well_formed board_0_G ∧
    ∃ r, find_solution attempt_move board_0_G 30 = some r ∧ r.has_won = true ∧
      (∀ m ∈ [('0', 'r')], m.1 ∈ pieceNames.take board_0_G.num_pieces.toNat ∧ m.2 ∈ directions) ∧
      [('0', 'r')].length < r.steps ∧
      winning_state (replay attempt_move board_0_G [('0', 'r')]) = false := by
  refine ⟨attempt_move_ok, by decide, ?_⟩
  have h := run_board_0_G
  cases hr : find_solution attempt_move board_0_G 30 with
  | none => rw [hr] at h; simp at h
  | some r =>
    rw [hr] at h
    simp only [Option.map_some', Option.some.injEq, Prod.mk.injEq] at h
    have hlen : [('0', 'r')].length < r.steps := by rw [h.2.2]; decide
    exact ⟨r, rfl, h.2.1, by decide, hlen,
      find_solution_min_moves attempt_move attempt_move_ok board_0_G (by decide) 30 r hr h.2.1
        [('0', 'r')] (by decide) hlen⟩

/-! ## Exhausted search -/

theorem mem_of_mem_words (M : List (Char × Char)) (k : Nat) (w : List (Char × Char))
    (h : w ∈ words M k) : ∀ m ∈ w, m ∈ M := by
  induction k generalizing w with
  | zero => simp [words] at h; simp [h]
  | succ k ih =>
    simp only [words, List.mem_flatMap, extend, List.mem_map] at h
    obtain ⟨v, hv, m, hm, rfl⟩ := h
    intro x hx
    rcases List.mem_append.1 hx with h1 | h1
    · exact ih v hv x h1
    · rw [List.mem_singleton.1 h1]; exact hm

theorem replay_board_congr (am : gate_t → Char → Char → gate_t) (hok : engine_ok am)
    (a b : gate_t) (w : List (Char × Char)) (h : board a = board b) :
    board (replay am a w) = board (replay am b w) := by
  induction w generalizing a b with
  | nil => exact h
  | cons m ms ih => exact ih _ _ (hok.board_fun a b m.1 m.2 h)

/-- A list of states that is closed under the moves of `M` contains, up to the
board, every state reached by replaying moves of `M` from one of its members. -/
theorem replay_in_closed_set (am : gate_t → Char → Char → gate_t) (hok : engine_ok am)
    (S : List gate_t) (M : List (Char × Char))
    (hclosed : ∀ g ∈ S, ∀ m ∈ M, ∃ h ∈ S, board (am g m.1 m.2) = board h)
    (w : List (Char × Char)) (hw : ∀ m ∈ w, m ∈ M) (g : gate_t) (hg : g ∈ S) :
    ∃ h ∈ S, board (replay am g w) = board h := by
  induction w generalizing g with
  | nil => exact ⟨g, hg, rfl⟩
  | cons m ms ih =>
    obtain ⟨h1, hS, hb⟩ := hclosed g hg m (hw m (List.mem_cons_self _ _))
    obtain ⟨h2, hS2, hb2⟩ := ih (fun x hx => hw x (List.mem_cons_of_mem _ hx)) h1 hS
    refine ⟨h2, hS2, ?_⟩
    rw [← hb2]
    exact replay_board_congr am hok _ _ ms hb

/-- With at least one move to try and no winning state within reach, the loop
never exits: every round leaves the queue non-empty. -/
theorem search_loop_diverges (am : gate_t → Char → Char → gate_t) (hok : engine_ok am)
    (init : gate_t) (hinit : well_formed init) (np : Int) (hM : moves np ≠ [])
    (hno : ∀ w, (∀ m ∈ w, m ∈ moves np) → winning_state (replay am init w) = false)
    (fuel : Nat) (st : search_t) (hinv : bfs_inv am init (moves np) st)
    (hne : st.queue ≠ []) :
    search_loop am np fuel st = none := by
  induction fuel generalizing st with
  | zero => rfl
  | succ fuel ih =>
    cases hq : st.queue with
    | nil => exact absurd hq hne
    | cons n rest =>
      obtain ⟨k, pre, w, post, hw, hn, _, _, _⟩ :=
        bfs_inv_head am init (moves np) st n rest hinv hq
      have hwM : ∀ m ∈ w, m ∈ moves np :=
        mem_of_mem_words _ k w (by rw [hw]; simp)
      have hnwin : winning_state n = false := by
        rw [winning_state_congr (congrArg Prod.fst hn)]
        exact hno w hwM
      have halive := hinv.choose_spec.choose_spec.choose_spec.2.2.2.2
      have hstep : loop_iter am np st =
          Sum.inr (expand am np n { st with queue := rest, dequeued := st.dequeued + 1 }) := by
        simp [loop_iter, hq, hnwin]
      have hal_n : alive st.next n := halive n (by rw [hq]; exact List.mem_cons_self _ _)
      have hal_rest : ∀ g ∈ rest, alive st.next g :=
        fun g hg => halive g (by rw [hq]; exact List.mem_cons_of_mem _ hg)
      obtain ⟨h1, _⟩ := expand_summary am hok init hinit np n w hn
        { st with queue := rest, dequeued := st.dequeued + 1 } hal_n hal_rest
      have hne2 : (expand am np n { st with queue := rest, dequeued := st.dequeued + 1 }).queue ≠ [] := by
        intro h0
        rw [h0] at h1
        cases hmv : moves np with
        | nil => exact hM hmv
        | cons m ms => rw [hmv] at h1; simp [extend] at h1
      unfold search_loop
      rw [hstep]
      exact ih _ (bfs_inv_step am hok init hinit np st _ hinv hstep) hne2

theorem walled_closed :
    ∀ g ∈ [board_walled, board_walled_right], ∀ m ∈ moves board_walled.num_pieces,
      ∃ h ∈ [board_walled, board_walled_right], board (attempt_move g m.1 m.2) = board h := by
  decide

theorem walled_never_wins (w : List (Char × Char))
    (hw : ∀ m ∈ w, m ∈ moves board_walled.num_pieces) :
    winning_state (replay attempt_move board_walled w) = false := by
  obtain ⟨h, hS, hb⟩ := replay_in_closed_set attempt_move attempt_move_ok
    [board_walled, board_walled_right] (moves board_walled.num_pieces) walled_closed w hw
    board_walled (by simp)
  rw [winning_state_congr hb]
  have hall : ∀ g ∈ [board_walled, board_walled_right], winning_state g = false := by decide
  exact hall h hS

/-- On the board `0 #G`, where the piece can step to and fro, no sequence of
moves reaches a winning state and the search loop does not exit within any
number of rounds. -/
theorem exhausted_search_diverges :
    (∀ w, (∀ m ∈ w, m ∈ moves board_walled.num_pieces) →
      winning_state (replay attempt_move board_walled w) = false) ∧
    ∀ fuel, find_solution attempt_move board_walled fuel = none := by
  refine ⟨walled_never_wins, ?_⟩
  intro fuel
  have hinit : well_formed board_walled := by decide
  have h := search_loop_diverges attempt_move attempt_move_ok board_walled hinit
    board_walled.num_pieces (by decide) walled_never_wins fuel (init_search board_walled)
    (bfs_inv_init attempt_move board_walled hinit _) (by simp [init_search, enqueue_state])
  simp [find_solution, h]

theorem stuck_closed :
    ∀ g ∈ [board_stuck], ∀ m ∈ moves board_stuck.num_pieces,
      ∃ h ∈ [board_stuck], board (attempt_move g m.1 m.2) = board h := by
  decide

theorem stuck_never_wins (w : List (Char × Char))
    (hw : ∀ m ∈ w, m ∈ moves board_stuck.num_pieces) :
    winning_state (replay attempt_move board_stuck w) = false := by
  obtain ⟨h, hS, hb⟩ := replay_in_closed_set attempt_move attempt_move_ok
    [board_stuck] (moves board_stuck.num_pieces) stuck_closed w hw board_stuck (by simp)
  rw [winning_state_congr hb]
  have hall : ∀ g ∈ [board_stuck], winning_state g = false := by decide
  exact hall h hS

/-- C3, evaluated on the board `0#G`, whose piece cannot move: each of the four
moves leaves the board as it is and no sequence of moves reaches a winning
state, yet after the first round of the loop the queue holds the four
successors `0u`, `0d`, `0l`, `0r`, all with the board of the parent, the
duplicates counter is 0, and the search loop does not exit within any number of
rounds. -/
theorem immobile_piece_never_drains :
    (∀ m ∈ moves board_stuck.num_pieces,
      board (attempt_move board_stuck m.1 m.2) = board board_stuck) ∧
    (∀ w, (∀ m ∈ w, m ∈ moves board_stuck.num_pieces) →
      winning_state (replay attempt_move board_stuck w) = false) ∧
    (frontier_after attempt_move board_stuck.num_pieces 1 (init_search board_stuck)).map
      (fun st => (st.queue.map fun g => (soln_str g, decide (board g = board board_stuck)),
        st.duplicatedNodes)) =
      some ([(['0', 'u'], true), (['0', 'd'], true), (['0', 'l'], true), (['0', 'r'], true)],
        0) ∧
    ∀ fuel, find_solution attempt_move board_stuck fuel = none := by
  refine ⟨by decide, stuck_never_wins, by decide, ?_⟩
  intro fuel
  have hinit : well_formed board_stuck := by decide
  have h := search_loop_diverges attempt_move attempt_move_ok board_stuck hinit
    board_stuck.num_pieces (by decide) stuck_never_wins fuel (init_search board_stuck)
    (bfs_inv_init attempt_move board_stuck hinit _) (by simp [init_search, enqueue_state])
  simp [find_solution, h]

/-! ## No visited set, and the comparison with the parent -/

theorem packMap_congr (calcBits : Int → Int) (a b : gate_t) (buf : List Bool)
    (h1 : a.num_pieces = b.num_pieces) (h2 : a.lines = b.lines)
    (h3 : a.num_chars_map = b.num_chars_map)
    (h4 : ∀ i, i < a.num_pieces.toNat → int_at a.piece_x i = int_at b.piece_x i)
    (h5 : ∀ i, i < a.num_pieces.toNat → int_at a.piece_y i = int_at b.piece_y i) :
    packMap calcBits a buf = packMap calcBits b buf := by
  unfold packMap
  simp only [← h1, ← h2, ← h3]
  congr 1
  apply List.foldl_ext
  intro s i hi
  have hi2 := List.mem_range.1 hi
  simp only [pack_piece, h4 i hi2, h5 i hi2]

theorem run_board_walled_5 :
    (frontier_after attempt_move board_walled.num_pieces 5 (init_search board_walled)).map
      (fun st => (queue_entry st 14, st.duplicatedNodes)) =
      some (some { path := ['0', 'r', '0', 'l'], piece_x := [0], piece_y := [0],
                   num_pieces := 1, lines := 1, num_chars_map := 4 }, 0) := by
  decide

/-- C4, as stated, fails: on the board `0 #G`, after five rounds of the loop the
frontier holds the state reached by `0r0l`, whose key equals the key of the
initial board for every `calcBits` and every buffer, and the duplicates counter
is 0. -/
theorem key_dedup_absent :
    ∃ st g, frontier_after attempt_move board_walled.num_pieces 5 (init_search board_walled) = some st ∧
      g ∈ st.queue ∧ soln_str g = ['0', 'r', '0', 'l'] ∧
      (∀ calcBits buf, packMap calcBits g buf = packMap calcBits board_walled buf) ∧
      st.duplicatedNodes = 0 := by
  have h := run_board_walled_5
  cases hst : frontier_after attempt_move board_walled.num_pieces 5 (init_search board_walled) with
  | none => rw [hst] at h; simp at h
  | some st =>
    rw [hst] at h
    simp only [Option.map_some', Option.some.injEq, Prod.mk.injEq] at h
    obtain ⟨hg, hdup⟩ := h
    unfold queue_entry at hg
    cases hq : st.queue[14]? with
    | none => rw [hq] at hg; simp at hg
    | some g =>
      rw [hq] at hg
      simp only [Option.map_some', Option.some.injEq, entry_t.mk.injEq] at hg
      obtain ⟨h1, h2, h3, h4, h5, h6⟩ := hg
      refine ⟨st, g, rfl, List.getElem?_mem hq, h1, ?_, hdup⟩
      intro calcBits buf
      exact packMap_congr calcBits g board_walled buf (by rw [h4]; rfl) (by rw [h5]; rfl)
        (by rw [h6]; rfl) (fun i _ => by rw [h2]; rfl) (fun i _ => by rw [h3]; rfl)

theorem memcmp_gate_moved (a n : gate_t)
    (h : a.piece_x ≠ n.piece_x ∨ a.piece_y ≠ n.piece_y) : memcmp_gate a n = false := by
  unfold memcmp_gate
  rcases h with h | h <;> simp [h]

/-- C4, amended: the driver consults no key.  For every parent `n`, every state
of the loop variables (whatever the queue holds) and every (piece, direction),
a successor whose piece positions differ from those of `n` is linked into the
queue with the extended path, the generated counter goes up by one and the
duplicates counter stays as it is. -/
theorem try_move_enqueues_moved (am : gate_t → Char → Char → gate_t) (n : gate_t)
    (st : search_t) (piece dir : Nat)
    (hmoved :
      (am (duplicate_state n st.next).1 (move_of (piece, dir)).1 (move_of (piece, dir)).2).piece_x
          ≠ n.piece_x ∨
      (am (duplicate_state n st.next).1 (move_of (piece, dir)).1 (move_of (piece, dir)).2).piece_y
          ≠ n.piece_y) :
    (try_move am n st piece dir).queue = st.queue ++ [successor am n st.next piece dir] ∧
    (try_move am n st piece dir).enqueued = st.enqueued + 1 ∧
    (try_move am n st piece dir).duplicatedNodes = st.duplicatedNodes := by
  rw [try_move_unfold, memcmp_gate_moved _ n hmoved]
  simp

/-- The hypothesis of `try_move_enqueues_moved` holds for the move `0r` on the
board `0 #G`. -/
theorem try_move_enqueues_moved_witness :
    ((attempt_move (duplicate_state board_walled 9).1 (move_of (0, 3)).1 (move_of (0, 3)).2).piece_x
          ≠ board_walled.piece_x ∨
      (attempt_move (duplicate_state board_walled 9).1 (move_of (0, 3)).1 (move_of (0, 3)).2).piece_y
          ≠ board_walled.piece_y) ∧
    ((try_move attempt_move board_walled (init_search board_walled) 0 3).queue =
        (init_search board_walled).queue ++
          [successor attempt_move board_walled (init_search board_walled).next 0 3] ∧
      (try_move attempt_move board_walled (init_search board_walled) 0 3).enqueued =
        (init_search board_walled).enqueued + 1 ∧
      (try_move attempt_move board_walled (init_search board_walled) 0 3).duplicatedNodes =
        (init_search board_walled).duplicatedNodes) :=
  ⟨by decide,
   try_move_enqueues_moved attempt_move board_walled (init_search board_walled) 0 3 (by decide)⟩

/-- C5, evaluated on the board `0 #G`: moving piece `'0'` up changes nothing on
the board, yet after the first round of the loop the queue holds the four
successors `0u`, `0d`, `0l`, `0r`, three of them with the board of the parent,
and the duplicates counter is 0. -/
theorem noop_move_enqueued :
    board (attempt_move board_walled '0' 'u') = board board_walled ∧
    (frontier_after attempt_move board_walled.num_pieces 1 (init_search board_walled)).map
      (fun st => (st.queue.map fun g => (soln_str g, decide (board g = board board_walled)),
        st.enqueued, st.duplicatedNodes)) =
      some ([(['0', 'u'], true), (['0', 'd'], true), (['0', 'l'], true), (['0', 'r'], false)],
        5, 0) := by
  decide

/-! ## Properties of every queued state -/

/-- A property of states that holds for the queue and passes from a parent to
each of its successors holds for the queue after one more round. -/
theorem loop_iter_queue_inv (am : gate_t → Char → Char → gate_t) (np : Int)
    (P : gate_t → Prop)
    (hsucc : ∀ n k pd, P n → pd ∈ index_pairs np → P (successor am n k pd.1 pd.2))
    (st st2 : search_t) (hq : ∀ g ∈ st.queue, P g)
    (hstep : loop_iter am np st = Sum.inr st2) : ∀ g ∈ st2.queue, P g := by
  unfold loop_iter at hstep
  split at hstep
  · exact absurd hstep (by simp)
  · rename_i n rest hqueue
    split at hstep
    · exact absurd hstep (by simp)
    · simp only [Sum.inr.injEq] at hstep
      subst hstep
      rw [expand_eq_foldl]
      obtain ⟨added, ha, hall⟩ := foldl_try_move_queue am n (index_pairs np)
        { st with queue := rest, dequeued := st.dequeued + 1 }
      rw [ha]
      intro g hg
      rcases List.mem_append.1 hg with h | h
      · exact hq g (by rw [hqueue]; exact List.mem_cons_of_mem _ h)
      · obtain ⟨k, pd, hpd, rfl⟩ := hall g h
        exact hsucc n k pd (hq n (by rw [hqueue]; exact List.mem_cons_self _ _)) hpd

theorem frontier_after_queue_inv (am : gate_t → Char → Char → gate_t) (np : Int)
    (P : gate_t → Prop)
    (hsucc : ∀ n k pd, P n → pd ∈ index_pairs np → P (successor am n k pd.1 pd.2))
    (k : Nat) (st st2 : search_t) (hq : ∀ g ∈ st.queue, P g)
    (hk : frontier_after am np k st = some st2) : ∀ g ∈ st2.queue, P g := by
  induction k generalizing st with
  | zero =>
    simp only [frontier_after, Option.some.injEq] at hk
    subst hk
    exact hq
  | succ k ih =>
    unfold frontier_after at hk
    split at hk
    · simp at hk
    · rename_i st1 hst1
      exact ih st1 (loop_iter_queue_inv am np P hsucc st st1 hq hst1) hk

/-- The printed path is the empty string or the path of a queued state. -/
theorem search_loop_soln_inv (am : gate_t → Char → Char → gate_t) (np : Int)
    (P : gate_t → Prop)
    (hsucc : ∀ n k pd, P n → pd ∈ index_pairs np → P (successor am n k pd.1 pd.2))
    (fuel : Nat) (st : search_t) (res : List Char × Bool × search_t)
    (hq : ∀ g ∈ st.queue, P g) (hres : search_loop am np fuel st = some res) :
    res.1 = [] ∨ ∃ g, P g ∧ res.1 = soln_str g := by
  induction fuel generalizing st with
  | zero => simp [search_loop] at hres
  | succ fuel ih =>
    unfold search_loop at hres
    split at hres
    · rename_i r hr
      simp only [Option.some.injEq] at hres
      subst hres
      unfold loop_iter at hr
      split at hr
      · simp only [Sum.inl.injEq] at hr
        subst hr
        exact Or.inl rfl
      · rename_i n rest hqueue
        split at hr
        · simp only [Sum.inl.injEq] at hr
          subst hr
          exact Or.inr ⟨n, hq n (by rw [hqueue]; exact List.mem_cons_self _ _), rfl⟩
        · exact absurd hr (by simp)
    · rename_i st1 hst1
      exact ih st1 (loop_iter_queue_inv am np P hsucc st st1 hq hst1) hres

theorem soln_str_successor (am : gate_t → Char → Char → gate_t)
    (hs : ∀ g l d, (am g l d).soln = g.soln) (n : gate_t) (k : Nat) (pd : Nat × Nat) :
    soln_str (successor am n k pd.1 pd.2) = soln_str n ++ [(move_of pd).1, (move_of pd).2] := by
  have h : soln_str (am (duplicate_state n k).1 (move_of pd).1 (move_of pd).2) = soln_str n := by
    unfold soln_str
    rw [hs]
    simp [duplicate_state, soln_str]
  simp only [successor, soln_str, move_of] at h ⊢
  rw [h]

theorem path_format_nil : path_format_ok [] := by
  refine ⟨rfl, ?_⟩
  intro k hk
  simp at hk

theorem path_format_snoc (s : List Char) (l d : Char) (hs : path_format_ok s)
    (hl : '0' ≤ l ∧ l ≤ '9') (hd : d = 'u' ∨ d = 'd' ∨ d = 'l' ∨ d = 'r') :
    path_format_ok (s ++ [l, d]) := by
  obtain ⟨heven, hall⟩ := hs
  refine ⟨by simp only [List.length_append, List.length_cons, List.length_nil]; omega, ?_⟩
  intro k hk
  simp only [List.length_append, List.length_cons, List.length_nil] at hk
  by_cases hlt : 2 * k + 1 < s.length
  · have h := hall k hlt
    unfold char_at at h ⊢
    rw [List.getD_append _ _ _ _ (by omega), List.getD_append _ _ _ _ hlt]
    exact h
  · have hk2 : 2 * k = s.length := by omega
    unfold char_at
    rw [List.getD_append_right _ _ _ _ (by omega), List.getD_append_right _ _ _ _ (by omega)]
    have e1 : 2 * k - s.length = 0 := by omega
    have e2 : 2 * k + 1 - s.length = 1 := by omega
    rw [e1, e2]
    exact ⟨hl, hd⟩

theorem move_of_label (p d : Nat) (hp : p < 10) :
    '0' ≤ (move_of (p, d)).1 ∧ (move_of (p, d)).1 ≤ '9' := by
  have h : ∀ q, q < 10 → '0' ≤ pieceNames.getD q NUL ∧ pieceNames.getD q NUL ≤ '9' := by decide
  exact h p hp

theorem move_of_direction (p d : Nat) (hd : d < 4) :
    (move_of (p, d)).2 = 'u' ∨ (move_of (p, d)).2 = 'd' ∨ (move_of (p, d)).2 = 'l' ∨
      (move_of (p, d)).2 = 'r' := by
  have h : ∀ q, q < 4 → directions.getD q NUL = 'u' ∨ directions.getD q NUL = 'd' ∨
      directions.getD q NUL = 'l' ∨ directions.getD q NUL = 'r' := by decide
  exact h d hd

theorem path_format_successor (am : gate_t → Char → Char → gate_t)
    (hs : ∀ g l d, (am g l d).soln = g.soln) (np : Int) (hnp : np ≤ 10)
    (n : gate_t) (k : Nat) (pd : Nat × Nat) (hn : path_format_ok (soln_str n))
    (hpd : pd ∈ index_pairs np) : path_format_ok (soln_str (successor am n k pd.1 pd.2)) := by
  rw [soln_str_successor am hs]
  obtain ⟨h1, h2⟩ := (mem_index_pairs np pd).1 hpd
  exact path_format_snoc _ _ _ hn (move_of_label pd.1 pd.2 (by omega)) (move_of_direction pd.1 pd.2 h2)

theorem init_search_queue (init : gate_t) :
    ∀ g ∈ (init_search init).queue, soln_str g = [] := by
  intro g hg
  simp only [init_search, enqueue_state, List.nil_append, List.mem_singleton] at hg
  subst hg
  rfl

/-- C10: with at most 10 pieces and a move engine that leaves `soln` alone,
every state that is on the frontier after any number of rounds of the loop, and
the path that `find_solution` prints, has a path of even length with a label
`'0'..'9'` at every even position and one of `u`, `d`, `l`, `r` behind it. -/
theorem path_format_invariant (am : gate_t → Char → Char → gate_t)
    (hs : ∀ g l d, (am g l d).soln = g.soln) (init : gate_t) (hnp : init.num_pieces ≤ 10) :
    (∀ k st, frontier_after am init.num_pieces k (init_search init) = some st →
      ∀ g ∈ st.queue, path_format_ok (soln_str g)) ∧
    (∀ fuel r, find_solution am init fuel = some r → path_format_ok r.soln) := by
  have hsucc : ∀ n k pd, path_format_ok (soln_str n) → pd ∈ index_pairs init.num_pieces →
      path_format_ok (soln_str (successor am n k pd.1 pd.2)) :=
    fun n k pd hn hpd => path_format_successor am hs init.num_pieces hnp n k pd hn hpd
  have h0 : ∀ g ∈ (init_search init).queue, path_format_ok (soln_str g) := by
    intro g hg
    rw [init_search_queue init g hg]
    exact path_format_nil
  constructor
  · intro k st hk
    exact frontier_after_queue_inv am init.num_pieces (fun g => path_format_ok (soln_str g))
      hsucc k _ st h0 hk
  · intro fuel r hr
    unfold find_solution at hr
    split at hr
    · simp at hr
    · rename_i soln won st3 hloop
      simp only [Option.some.injEq] at hr
      subst hr
      rcases search_loop_soln_inv am init.num_pieces (fun g => path_format_ok (soln_str g))
        hsucc fuel _ (soln, won, st3) h0 hloop with h | ⟨g, hg, h⟩
      · simp only at h
        simp only [make_report, h]
        exact path_format_nil
      · simp only at h
        simp only [make_report, h]
        exact hg

/-- The hypotheses of `path_format_invariant` hold for the modelled move engine
and the board `0 G`. -/
theorem path_format_invariant_witness :
    (∀ g l d, (attempt_move g l d).soln = g.soln) ∧ board_0_G.num_pieces ≤ 10 ∧
    ((∀ k st, frontier_after attempt_move board_0_G.num_pieces k (init_search board_0_G) = some st →
      ∀ g ∈ st.queue, path_format_ok (soln_str g)) ∧
    (∀ fuel r, find_solution attempt_move board_0_G fuel = some r → path_format_ok r.soln)) :=
  ⟨attempt_move_soln, by decide,
   path_format_invariant attempt_move attempt_move_soln board_0_G (by decide)⟩

/-! ## The encoder -/

theorem bit_of_eq_nth_bit (v : Int) (j : Nat) : bit_of v j = nth_bit v j := by
  unfold bit_of nth_bit
  rw [Int.shiftRight_eq_div_pow]
  simp only [Nat.cast_pow, Nat.cast_ofNat]
  by_cases h : v / 2 ^ j % 2 = 1
  · simp [h]
  · simp [h]

theorem pack_field_spec (v : Int) (nbits : Int) (buf : List Bool) (idx : Nat) :
    (pack_field v nbits (buf, idx)).2 = idx + nbits.toNat ∧
    (pack_field v nbits (buf, idx)).1.length = buf.length ∧
    ∀ t, (pack_field v nbits (buf, idx)).1[t]? =
      if idx ≤ t ∧ t < idx + nbits.toNat ∧ t < buf.length then some (bit_of v (t - idx))
      else buf[t]? := by
  unfold pack_field
  generalize nbits.toNat = n
  induction n with
  | zero =>
    refine ⟨rfl, rfl, ?_⟩
    intro t
    simp only [List.range_zero, List.foldl_nil, Nat.add_zero]
    rw [if_neg (by omega)]
  | succ n ih =>
    obtain ⟨h1, h2, h3⟩ := ih
    rw [List.range_succ, List.foldl_append]
    simp only [List.foldl_cons, List.foldl_nil]
    generalize List.foldl (fun acc j => if bit_of v j = true then (bitOn acc.1 acc.2, acc.2 + 1)
      else (bitOff acc.1 acc.2, acc.2 + 1)) (buf, idx) (List.range n) = r at h1 h2 h3
    obtain ⟨b, k⟩ := r
    simp only at h1 h2 h3
    subst h1
    have hset : (if bit_of v n = true then (bitOn b (idx + n), idx + n + 1)
        else (bitOff b (idx + n), idx + n + 1)) = (b.set (idx + n) (bit_of v n), idx + n + 1) := by
      cases hb : bit_of v n <;> simp [bitOn, bitOff]
    rw [hset]
    refine ⟨by simp only; omega, by simp [h2], ?_⟩
    intro t
    simp only [List.getElem?_set, h2, h3]
    by_cases ht : idx + n = t
    · subst ht
      by_cases hlen : idx + n < buf.length
      · simp [hlen]
      · simp only [hlen, if_true, if_false, and_false]
        simp only [List.getElem?_eq_none (Nat.le_of_not_lt hlen)]
    · simp only [ht, if_false]
      by_cases hc : idx ≤ t ∧ t < idx + n ∧ t < buf.length
      · rw [if_pos hc, if_pos ⟨hc.1, by omega, hc.2.2⟩]
      · rw [if_neg hc, if_neg (by omega)]

theorem pack_piece_spec (gate : gate_t) (pB hB wB : Int) (buf : List Bool) (idx i : Nat) :
    (pack_piece gate pB hB wB (buf, idx) i).2 = idx + (pB.toNat + hB.toNat + wB.toNat) ∧
    (pack_piece gate pB hB wB (buf, idx) i).1.length = buf.length ∧
    ∀ t, (pack_piece gate pB hB wB (buf, idx) i).1[t]? =
      if idx ≤ t ∧ t < idx + (pB.toNat + hB.toNat + wB.toNat) ∧ t < buf.length then
        some (atom_bit gate pB.toNat hB.toNat i (t - idx))
      else buf[t]? := by
  unfold pack_piece
  obtain ⟨a1, a2, a3⟩ := pack_field_spec (i : Int) pB buf idx
  generalize pack_field (i : Int) pB (buf, idx) = r1 at a1 a2 a3
  obtain ⟨b1, k1⟩ := r1
  simp only at a1 a2 a3
  subst a1
  obtain ⟨c1, c2, c3⟩ := pack_field_spec (int_at gate.piece_y i) hB b1 (idx + pB.toNat)
  generalize pack_field (int_at gate.piece_y i) hB (b1, idx + pB.toNat) = r2 at c1 c2 c3
  obtain ⟨b2, k2⟩ := r2
  simp only at c1 c2 c3
  subst c1
  obtain ⟨d1, d2, d3⟩ := pack_field_spec (int_at gate.piece_x i) wB b2 (idx + pB.toNat + hB.toNat)
  refine ⟨by rw [d1]; omega, by rw [d2, c2, a2], ?_⟩
  intro t
  rw [d3, c3, a3, c2, a2]
  unfold atom_bit
  by_cases h1 : idx ≤ t ∧ t < idx + (pB.toNat + hB.toNat + wB.toNat) ∧ t < buf.length
  · rw [if_pos h1]
    by_cases h2 : t < idx + pB.toNat
    · rw [if_neg (by omega), if_neg (by omega), if_pos ⟨h1.1, h2, h1.2.2⟩, if_pos (by omega)]
    · by_cases h3 : t < idx + pB.toNat + hB.toNat
      · rw [if_neg (by omega), if_pos ⟨by omega, h3, h1.2.2⟩, if_neg (by omega), if_pos (by omega)]
        congr 2
        omega
      · rw [if_pos ⟨by omega, by omega, h1.2.2⟩, if_neg (by omega), if_neg (by omega)]
        congr 2
        omega
  · rw [if_neg h1, if_neg (by omega), if_neg (by omega), if_neg (by omega)]

/-- The buffer after the blocks of the first `n` pieces have been written. -/
theorem pack_pieces_spec (gate : gate_t) (pB hB wB : Int) (buf : List Bool) (n : Nat) :
    ((List.range n).foldl (pack_piece gate pB hB wB) (buf, 0)).2 =
        n * (pB.toNat + hB.toNat + wB.toNat) ∧
    ((List.range n).foldl (pack_piece gate pB hB wB) (buf, 0)).1.length = buf.length ∧
    (∀ i r, i < n → r < pB.toNat + hB.toNat + wB.toNat →
      i * (pB.toNat + hB.toNat + wB.toNat) + r < buf.length →
      ((List.range n).foldl (pack_piece gate pB hB wB) (buf, 0)).1[
          i * (pB.toNat + hB.toNat + wB.toNat) + r]? =
        some (atom_bit gate pB.toNat hB.toNat i r)) ∧
    (∀ t, n * (pB.toNat + hB.toNat + wB.toNat) ≤ t →
      ((List.range n).foldl (pack_piece gate pB hB wB) (buf, 0)).1[t]? = buf[t]?) := by
  generalize hA : pB.toNat + hB.toNat + wB.toNat = A
  induction n with
  | zero =>
    refine ⟨by simp, rfl, ?_, ?_⟩
    · intro i r hi; omega
    · intro t _; rfl
  | succ n ih =>
    obtain ⟨h1, h2, h3, h4⟩ := ih
    rw [List.range_succ, List.foldl_append]
    simp only [List.foldl_cons, List.foldl_nil]
    generalize List.foldl (pack_piece gate pB hB wB) (buf, 0) (List.range n) = r0 at h1 h2 h3 h4
    obtain ⟨b, k⟩ := r0
    simp only at h1 h2 h3 h4
    subst h1
    obtain ⟨e1, e2, e3⟩ := pack_piece_spec gate pB hB wB b (n * A) n
    rw [hA] at e1 e3
    refine ⟨by rw [e1, Nat.succ_mul], by rw [e2, h2], ?_, ?_⟩
    · intro i r hi hr hlen
      rw [e3, h2]
      rcases Nat.lt_succ_iff_lt_or_eq.1 hi with hlt | heq
      · have hmul : (i + 1) * A ≤ n * A := Nat.mul_le_mul_right A hlt
        rw [Nat.succ_mul] at hmul
        rw [if_neg (by omega)]
        exact h3 i r hlt hr hlen
      · subst heq
        rw [if_pos ⟨by omega, by omega, hlen⟩]
        congr 2
        omega
    · intro t ht
      rw [Nat.succ_mul] at ht
      rw [e3, if_neg (by omega)]
      exact h4 t (by omega)

theorem packMap_spec (calcBits : Int → Int) (gate : gate_t) (buf : List Bool) :
    (packMap calcBits gate buf).length = buf.length ∧
    (∀ i r, i < gate.num_pieces.toNat → r < atomBits calcBits gate →
      i * atomBits calcBits gate + r < buf.length →
      (packMap calcBits gate buf)[i * atomBits calcBits gate + r]? =
        some (atom_bit gate (pBits calcBits gate) (hBits calcBits gate) i r)) ∧
    (∀ t, gate.num_pieces.toNat * atomBits calcBits gate ≤ t →
      (packMap calcBits gate buf)[t]? = buf[t]?) := by
  obtain ⟨_, h2, h3, h4⟩ := pack_pieces_spec gate (calcBits gate.num_pieces)
    (calcBits gate.lines) (calcBits (Int.tdiv gate.num_chars_map gate.lines)) buf
    gate.num_pieces.toNat
  exact ⟨h2, h3, h4⟩

theorem block_index_lt {i n A r len : Nat} (hi : i < n) (hr : r < A) (hlen : n * A ≤ len) :
    i * A + r < len := by
  have h : (i + 1) * A ≤ n * A := Nat.mul_le_mul_right A hi
  rw [Nat.succ_mul] at h
  omega

/-- The three fields of the block of piece `i`, with the bits as the code
computes them. -/
theorem packMap_fields (calcBits : Int → Int) (gate : gate_t) (buf : List Bool) (i : Nat)
    (hi : i < gate.num_pieces.toNat)
    (hbuf : gate.num_pieces.toNat * atomBits calcBits gate ≤ buf.length) :
    (∀ j, j < pBits calcBits gate →
      (packMap calcBits gate buf)[i * atomBits calcBits gate + j]? = some (bit_of (i : Int) j)) ∧
    (∀ j, j < hBits calcBits gate →
      (packMap calcBits gate buf)[i * atomBits calcBits gate + pBits calcBits gate + j]? =
        some (bit_of (int_at gate.piece_y i) j)) ∧
    (∀ j, j < wBits calcBits gate →
      (packMap calcBits gate buf)[i * atomBits calcBits gate + pBits calcBits gate +
          hBits calcBits gate + j]? =
        some (bit_of (int_at gate.piece_x i) j)) := by
  obtain ⟨_, hbits, _⟩ := packMap_spec calcBits gate buf
  have hA : atomBits calcBits gate =
      pBits calcBits gate + hBits calcBits gate + wBits calcBits gate := rfl
  refine ⟨?_, ?_, ?_⟩
  · intro j hj
    rw [hbits i j hi (by omega) (block_index_lt hi (by omega) hbuf)]
    simp only [atom_bit, if_pos hj]
  · intro j hj
    rw [Nat.add_assoc,
      hbits i (pBits calcBits gate + j) hi (by omega) (block_index_lt hi (by omega) hbuf)]
    simp only [atom_bit]
    rw [if_neg (by omega), if_pos (by omega)]
    congr 2
    omega
  · intro j hj
    rw [Nat.add_assoc, Nat.add_assoc,
      hbits i (pBits calcBits gate + (hBits calcBits gate + j)) hi (by omega)
        (block_index_lt hi (by omega) hbuf)]
    simp only [atom_bit]
    rw [if_neg (by omega), if_neg (by omega)]
    congr 2
    omega

/-- C9: after `packMap`, with `A = pBits + hBits + wBits`, for every piece
`i < num_pieces` the bit at index `i * A + j` is bit `j` of `i` (`j < pBits`),
the bit at index `i * A + pBits + j` is bit `j` of `piece_y[i]` (`j < hBits`),
and the bit at index `i * A + pBits + hBits + j` is bit `j` of `piece_x[i]`
(`j < wBits`); the buffer holds at least `num_pieces * A` bits. -/
theorem packMap_layout (calcBits : Int → Int) (gate : gate_t) (buf : List Bool) (i : Nat)
    (hi : i < gate.num_pieces.toNat)
    (hbuf : gate.num_pieces.toNat * atomBits calcBits gate ≤ buf.length) :
    (∀ j, j < pBits calcBits gate →
      (packMap calcBits gate buf)[i * atomBits calcBits gate + j]? = some (nth_bit (i : Int) j)) ∧
    (∀ j, j < hBits calcBits gate →
      (packMap calcBits gate buf)[i * atomBits calcBits gate + pBits calcBits gate + j]? =
        some (nth_bit (int_at gate.piece_y i) j)) ∧
    (∀ j, j < wBits calcBits gate →
      (packMap calcBits gate buf)[i * atomBits calcBits gate + pBits calcBits gate +
          hBits calcBits gate + j]? =
        some (nth_bit (int_at gate.piece_x i) j)) := by
  obtain ⟨h1, h2, h3⟩ := packMap_fields calcBits gate buf i hi hbuf
  simp only [← bit_of_eq_nth_bit]
  exact ⟨h1, h2, h3⟩

theorem atomBits_walled : atomBits calcBits_log board_walled = 2 := by
  simp [atomBits, pBits, hBits, wBits, calcBits_log, board_walled, mk_gate, Nat.clog]

/-- The hypotheses of `packMap_layout` hold for the board `0 #G`, `⌈log2 n⌉` as
`calcBits` and a buffer of one byte. -/
theorem packMap_layout_witness :
    (0 < board_walled.num_pieces.toNat ∧
      board_walled.num_pieces.toNat * atomBits calcBits_log board_walled ≤
        (List.replicate 8 false).length) ∧
    ((∀ j, j < pBits calcBits_log board_walled →
      (packMap calcBits_log board_walled (List.replicate 8 false))[
          0 * atomBits calcBits_log board_walled + j]? = some (nth_bit ((0 : Nat) : Int) j)) ∧
    (∀ j, j < hBits calcBits_log board_walled →
      (packMap calcBits_log board_walled (List.replicate 8 false))[
          0 * atomBits calcBits_log board_walled + pBits calcBits_log board_walled + j]? =
        some (nth_bit (int_at board_walled.piece_y 0) j)) ∧
    (∀ j, j < wBits calcBits_log board_walled →
      (packMap calcBits_log board_walled (List.replicate 8 false))[
          0 * atomBits calcBits_log board_walled + pBits calcBits_log board_walled +
            hBits calcBits_log board_walled + j]? =
        some (nth_bit (int_at board_walled.piece_x 0) j))) :=
  ⟨⟨by decide, by rw [atomBits_walled]; decide⟩,
   packMap_layout calcBits_log board_walled (List.replicate 8 false) 0 (by decide)
     (by rw [atomBits_walled]; decide)⟩

theorem bit_of_natCast (a j : Nat) : bit_of (a : Int) j = a.testBit j := by
  unfold bit_of
  rw [Int.shiftRight_eq_div_pow, Nat.testBit_to_div_mod]
  have h : ((a : Int) / ((2 ^ j : Nat) : Int)) % 2 = ((a / 2 ^ j % 2 : Nat) : Int) := by
    push_cast
    rfl
  rw [h]
  have hiff : (((a / 2 ^ j % 2 : Nat) : Int) = 1) ↔ (a / 2 ^ j % 2 = 1) := by
    constructor
    · intro hc; exact_mod_cast hc
    · intro hc; rw [hc]; rfl
  by_cases hb : a / 2 ^ j % 2 = 1
  · rw [decide_eq_true hb]; exact beq_iff_eq.2 (hiff.2 hb)
  · rw [decide_eq_false hb]; exact beq_eq_false_iff_ne.2 (fun hc => hb (hiff.1 hc))

/-- Two non-negative integers below `2 ^ n` with the same `n` low bits are equal. -/
theorem int_eq_of_bits (u v : Int) (n : Nat) (hu : 0 ≤ u) (hv : 0 ≤ v)
    (hun : u.toNat < 2 ^ n) (hvn : v.toNat < 2 ^ n)
    (h : ∀ j, j < n → bit_of u j = bit_of v j) : u = v := by
  obtain ⟨a, rfl⟩ := Int.eq_ofNat_of_zero_le hu
  obtain ⟨b, rfl⟩ := Int.eq_ofNat_of_zero_le hv
  simp only [Int.toNat_ofNat] at hun hvn
  congr 1
  apply Nat.eq_of_testBit_eq
  intro j
  by_cases hj : j < n
  · have := h j hj
    rw [bit_of_natCast, bit_of_natCast] at this
    exact this
  · have hpow : 2 ^ n ≤ 2 ^ j := Nat.pow_le_pow_right (by decide) (Nat.le_of_not_lt hj)
    rw [Nat.testBit_lt_two_pow (by omega), Nat.testBit_lt_two_pow (by omega)]

theorem lt_two_pow_clog (v n : Int) (h0 : 0 ≤ v) (hlt : v < n) :
    v.toNat < 2 ^ (Nat.clog 2 n.toNat) := by
  have h1 : v.toNat < n.toNat := by omega
  exact Nat.lt_of_lt_of_le h1 (Nat.le_pow_clog (by decide) _)

/-- C8: for two states with the same `lines`, `num_chars_map` and `num_pieces`
whose piece coordinates lie inside the grid, with `calcBits n = ⌈log2 n⌉`,
`packMap` applied to the same initial buffer (of at least `num_pieces * A` bits)
gives equal buffers exactly when `piece_x[i]` and `piece_y[i]` agree for every
`i < num_pieces`. -/
theorem packMap_injective (calcBits : Int → Int)
    (hcb : ∀ n, calcBits n = ((Nat.clog 2 n.toNat : Nat) : Int))
    (a b : gate_t) (buf : List Bool)
    (hl : a.lines = b.lines) (hc : a.num_chars_map = b.num_chars_map)
    (hn : a.num_pieces = b.num_pieces)
    (ha : ∀ i, i < a.num_pieces.toNat →
      (0 ≤ int_at a.piece_y i ∧ int_at a.piece_y i < a.lines) ∧
      (0 ≤ int_at a.piece_x i ∧ int_at a.piece_x i < Int.tdiv a.num_chars_map a.lines))
    (hb : ∀ i, i < b.num_pieces.toNat →
      (0 ≤ int_at b.piece_y i ∧ int_at b.piece_y i < b.lines) ∧
      (0 ≤ int_at b.piece_x i ∧ int_at b.piece_x i < Int.tdiv b.num_chars_map b.lines))
    (hbuf : a.num_pieces.toNat * atomBits calcBits a ≤ buf.length) :
    packMap calcBits a buf = packMap calcBits b buf ↔
      ∀ i, i < a.num_pieces.toNat →
        int_at a.piece_x i = int_at b.piece_x i ∧ int_at a.piece_y i = int_at b.piece_y i := by
  constructor
  · intro heq i hi
    have hib : i < b.num_pieces.toNat := by rw [← hn]; exact hi
    have hbufb : b.num_pieces.toNat * atomBits calcBits b ≤ buf.length := by
      simpa only [atomBits, pBits, hBits, wBits, ← hl, ← hc, ← hn] using hbuf
    obtain ⟨_, hya, hxa⟩ := packMap_fields calcBits a buf i hi hbuf
    obtain ⟨_, hyb, hxb⟩ := packMap_fields calcBits b buf i hib hbufb
    have hA : atomBits calcBits b = atomBits calcBits a := by
      simp only [atomBits, pBits, hBits, wBits, ← hl, ← hc, ← hn]
    have hP : pBits calcBits b = pBits calcBits a := by simp only [pBits, ← hn]
    have hH : hBits calcBits b = hBits calcBits a := by simp only [hBits, ← hl]
    have hW : wBits calcBits b = wBits calcBits a := by simp only [wBits, ← hl, ← hc]
    rw [hA, hP, hH] at hxb
    rw [hA, hP] at hyb
    rw [hW] at hxb
    rw [hH] at hyb
    rw [← heq] at hxb hyb
    obtain ⟨⟨ya0, ya1⟩, xa0, xa1⟩ := ha i hi
    obtain ⟨⟨yb0, yb1⟩, xb0, xb1⟩ := hb i hib
    have hhv : hBits calcBits a = Nat.clog 2 a.lines.toNat := by
      simp only [hBits, hcb, Int.toNat_ofNat]
    have hwv : wBits calcBits a = Nat.clog 2 (Int.tdiv a.num_chars_map a.lines).toNat := by
      simp only [wBits, hcb, Int.toNat_ofNat]
    constructor
    · apply int_eq_of_bits _ _ (wBits calcBits a) xa0 xb0
      · rw [hwv]; exact lt_two_pow_clog _ _ xa0 xa1
      · rw [hwv, hl, hc]; exact lt_two_pow_clog _ _ xb0 xb1
      · intro j hj
        have h1 := hxa j hj
        rw [hxb j hj] at h1
        exact (Option.some.inj h1).symm
    · apply int_eq_of_bits _ _ (hBits calcBits a) ya0 yb0
      · rw [hhv]; exact lt_two_pow_clog _ _ ya0 ya1
      · rw [hhv, hl]; exact lt_two_pow_clog _ _ yb0 yb1
      · intro j hj
        have h1 := hya j hj
        rw [hyb j hj] at h1
        exact (Option.some.inj h1).symm
  · intro h
    exact packMap_congr calcBits a b buf hn hl hc (fun i hi => (h i hi).1) (fun i hi => (h i hi).2)

/-- The hypotheses of `packMap_injective` hold for the board `0 #G` before and
after the step of piece `'0'` to the right; the positions differ, so the keys
differ. -/
theorem packMap_injective_witness :
    ((∀ n, calcBits_log n = ((Nat.clog 2 n.toNat : Nat) : Int)) ∧
      board_walled.lines = board_walled_right.lines ∧
      board_walled.num_chars_map = board_walled_right.num_chars_map ∧
      board_walled.num_pieces = board_walled_right.num_pieces ∧
      (∀ i, i < board_walled.num_pieces.toNat →
        (0 ≤ int_at board_walled.piece_y i ∧ int_at board_walled.piece_y i < board_walled.lines) ∧
        (0 ≤ int_at board_walled.piece_x i ∧
          int_at board_walled.piece_x i <
            Int.tdiv board_walled.num_chars_map board_walled.lines)) ∧
      (∀ i, i < board_walled_right.num_pieces.toNat →
        (0 ≤ int_at board_walled_right.piece_y i ∧
          int_at board_walled_right.piece_y i < board_walled_right.lines) ∧
        (0 ≤ int_at board_walled_right.piece_x i ∧
          int_at board_walled_right.piece_x i <
            Int.tdiv board_walled_right.num_chars_map board_walled_right.lines)) ∧
      board_walled.num_pieces.toNat * atomBits calcBits_log board_walled ≤
        (List.replicate 8 false).length) ∧
    (packMap calcBits_log board_walled (List.replicate 8 false) =
        packMap calcBits_log board_walled_right (List.replicate 8 false) ↔
      ∀ i, i < board_walled.num_pieces.toNat →
        int_at board_walled.piece_x i = int_at board_walled_right.piece_x i ∧
        int_at board_walled.piece_y i = int_at board_walled_right.piece_y i) :=
  ⟨⟨fun _ => rfl, by decide, by decide, by decide, by decide, by decide,
    by rw [atomBits_walled]; decide⟩,
   packMap_injective calcBits_log (fun _ => rfl) board_walled board_walled_right
     (List.replicate 8 false) (by decide) (by decide) (by decide) (by decide) (by decide)
     (by rw [atomBits_walled]; decide)⟩

/-! ## `duplicate_state`, the path of a successor, `getPackedSize` -/

/-- C19: the clone returned by `duplicate_state` has a map of `lines` rows, each
equal to the row of `g.map` with the same index, a path equal to the one of `g`
(the empty string for NULL), and all other fields as in `g`. -/
theorem duplicate_state_clone (g : gate_t) (next : Nat) :
    (duplicate_state g next).1.map.rows.length = g.lines.toNat ∧
    (∀ i, i < g.lines.toNat → row_at (duplicate_state g next).1.map i = row_at g.map i) ∧
    (∃ s, (duplicate_state g next).1.soln = some s ∧ s.val = soln_str g) ∧
    (g.soln = none → soln_str (duplicate_state g next).1 = []) ∧
    (duplicate_state g next).1.map_save = g.map_save ∧
    (duplicate_state g next).1.lines = g.lines ∧
    (duplicate_state g next).1.num_chars_map = g.num_chars_map ∧
    (duplicate_state g next).1.num_pieces = g.num_pieces ∧
    (duplicate_state g next).1.piece_x = g.piece_x ∧
    (duplicate_state g next).1.piece_y = g.piece_y ∧
    (duplicate_state g next).1.player_x = g.player_x ∧
    (duplicate_state g next).1.player_y = g.player_y ∧
    (duplicate_state g next).1.buffer = g.buffer ∧
    (duplicate_state g next).1.base_path = g.base_path := by
  refine ⟨by simp [duplicate_state], ?_, ⟨_, rfl, rfl⟩, ?_, rfl, rfl, rfl, rfl, rfl, rfl, rfl, rfl,
    rfl, rfl⟩
  · intro i hi
    simp [duplicate_state, row_at, List.getD_eq_getElem?_getD, hi]
  · intro h
    simp [duplicate_state, soln_str, h]

/-- C17: with a move engine that leaves `soln` alone, the state that `try_move`
links into the queue for parent `p`, piece index `k` and direction index `d`
has the path of `p` followed by `pieceNames[k]` and `directions[d]`, two
characters more; the state enqueued first has the empty path. -/
theorem successor_adds_two (am : gate_t → Char → Char → gate_t)
    (hs : ∀ g l d, (am g l d).soln = g.soln) (init p : gate_t) (st : search_t) (k d : Nat)
    (s : gate_t) (hq : (try_move am p st k d).queue = st.queue ++ [s]) :
    soln_str s = soln_str p ++ [pieceNames.getD k NUL, directions.getD d NUL] ∧
    (soln_str s).length = (soln_str p).length + 2 ∧
    ∀ g ∈ (init_search init).queue, soln_str g = [] := by
  have hs2 : soln_str s = soln_str p ++ [pieceNames.getD k NUL, directions.getD d NUL] := by
    rw [try_move_unfold] at hq
    split at hq
    · have := congrArg List.length hq
      simp at this
    · have h2 : s = successor am p st.next k d := by
        have := List.append_cancel_left hq
        simpa using this.symm
      rw [h2]
      exact soln_str_successor am hs p st.next (k, d)
  refine ⟨hs2, ?_, init_search_queue init⟩
  rw [hs2]
  simp

/-- The hypotheses of `successor_adds_two` hold for the move `0r` tried on the
board `0 #G`. -/
theorem successor_adds_two_witness :
    (∀ g l d, (attempt_move g l d).soln = g.soln) ∧
    (try_move attempt_move board_walled (init_search board_walled) 0 3).queue =
      (init_search board_walled).queue ++
        [successor attempt_move board_walled (init_search board_walled).next 0 3] ∧
    (soln_str (successor attempt_move board_walled (init_search board_walled).next 0 3) =
        soln_str board_walled ++ [pieceNames.getD 0 NUL, directions.getD 3 NUL] ∧
      (soln_str (successor attempt_move board_walled (init_search board_walled).next 0 3)).length =
        (soln_str board_walled).length + 2 ∧
      ∀ g ∈ (init_search board_walled).queue, soln_str g = []) :=
  ⟨attempt_move_soln, by decide,
   successor_adds_two attempt_move attempt_move_soln board_walled board_walled
     (init_search board_walled) 0 3 _ (by decide)⟩

/-- C13, evaluated on the board `0 #G` with `⌈log2 n⌉` for `calcBits`: the key
has 2 bits, which fit in 1 byte, and `getPackedSize` returns 2. -/
theorem getPackedSize_counts_bits :
    getPackedSize calcBits_log board_walled = 2 ∧
    board_walled.num_pieces.toNat * atomBits calcBits_log board_walled = 2 ∧
    (board_walled.num_pieces.toNat * atomBits calcBits_log board_walled + 7) / 8 = 1 := by
  rw [atomBits_walled]
  refine ⟨?_, by decide, by decide⟩
  simp [getPackedSize, calcBits_log, board_walled, mk_gate, Nat.clog]

/-! ## Boards that are won before the first move -/

theorem is_target_NUL : is_target NUL = false := by decide

/-- A state without target cells in `map` passes `winning_state`, and so does
its clone. -/
theorem winning_state_of_spec (g : gate_t) (h : winning_spec g) (next : Nat) :
    winning_state (duplicate_state g next).1 = true := by
  rw [winning_state_iff]
  intro i hi j _
  have hi2 : i < g.lines.toNat := hi
  have hrow : row_at (duplicate_state g next).1.map i = row_at g.map i := by
    simp [duplicate_state, row_at, List.getD_eq_getElem?_getD, hi2]
  rw [hrow]
  by_cases hr : i < g.map.rows.length
  · by_cases hc : j < (row_at g.map i).length
    · have := h i j hr hc
      rw [← is_target_iff] at this
      simpa using this
    · have hnul : char_at (row_at g.map i) j = NUL := by
        unfold char_at
        rw [List.getD_eq_getElem?_getD, List.getElem?_eq_none (Nat.le_of_not_lt hc)]
        rfl
      rw [hnul]; exact is_target_NUL
  · have hempty : row_at g.map i = [] := by
      unfold row_at
      rw [List.getD_eq_getElem?_getD, List.getElem?_eq_none (Nat.le_of_not_lt hr)]
      rfl
    have hnul : char_at (row_at g.map i) j = NUL := by
      rw [hempty]
      cases j <;> rfl
    rw [hnul]; exact is_target_NUL

theorem winning_spec_drop_soln (g : gate_t) (h : winning_spec g) :
    winning_spec { g with soln := none } := h

/-- When the clone of the initial board is winning, the loop stops in its first
round, whatever the move engine is. -/
theorem find_solution_first_round (am : gate_t → Char → Char → gate_t) (init : gate_t)
    (h : winning_spec init) (fuel : Nat) :
    find_solution am init (fuel + 1) =
      some (make_report init [] true (first_round_exit init)) := by
  have hw := winning_state_of_spec { init with soln := none } (winning_spec_drop_soln init h)
    (first_free init + 1)
  have hiter : loop_iter am init.num_pieces (init_search init) =
      Sum.inl ([], true, first_round_exit init) := by
    simp only [loop_iter, init_search, enqueue_state, List.nil_append, hw, if_true,
      first_round_exit]
    rfl
  simp only [find_solution, search_loop, hiter]

/-- C11: for an initial board whose map holds no `'G'` and no letter in
`'I'..'Q'`, `find_solution` stops in the first round of its loop: the report
says won, has the empty path, 1 expanded node and 0 steps, and is the same for
every move engine, which is never consulted. -/
theorem already_won (am : gate_t → Char → Char → gate_t) (init : gate_t)
    (hwon : winning_spec init) (fuel : Nat) :
    ∃ r, find_solution am init (fuel + 1) = some r ∧ r.has_won = true ∧ r.soln = [] ∧
      r.dequeued = 1 ∧ r.steps = 0 ∧ r.frontier = [] ∧
      ∀ am2, find_solution am2 init (fuel + 1) = some r :=
  ⟨make_report init [] true (first_round_exit init),
   find_solution_first_round am init hwon fuel, rfl, rfl, rfl, rfl, rfl,
   fun am2 => find_solution_first_round am2 init hwon fuel⟩

theorem winning_spec_of_all (g : gate_t)
    (h : ∀ row ∈ g.map.rows, ∀ c ∈ row, is_target c = false) : winning_spec g := by
  intro r c hr hc
  have hrow : row_at g.map r ∈ g.map.rows := by
    unfold row_at
    rw [List.getD_eq_getElem?_getD, List.getElem?_eq_getElem hr]
    exact List.getElem_mem _
  have hch : char_at (row_at g.map r) c ∈ row_at g.map r := by
    unfold char_at
    rw [List.getD_eq_getElem?_getD, List.getElem?_eq_getElem hc]
    exact List.getElem_mem _
  have := h _ hrow _ hch
  rw [← is_target_iff]
  simp [this]

/-- The hypothesis of `already_won` holds for the board `0 `. -/
theorem already_won_witness :
    winning_spec board_won ∧
    ∃ r, find_solution attempt_move board_won 1 = some r ∧ r.has_won = true ∧ r.soln = [] ∧
      r.dequeued = 1 ∧ r.steps = 0 ∧ r.frontier = [] ∧
      ∀ am2, find_solution am2 board_won 1 = some r :=
  ⟨winning_spec_of_all board_won (by decide),
   already_won attempt_move board_won (winning_spec_of_all board_won (by decide)) 0⟩

/-- C12, as stated, fails: on the 3 x 3 board of walls around piece `'0'` the
search ends with the empty frontier and the empty path, and reports a win. -/
theorem all_walls_reports_win :
    all_walls_but_piece board_all_walls ∧
    (find_solution attempt_move board_all_walls 1).map
      (fun r => (r.frontier.length, r.soln, r.has_won)) = some (0, [], true) := by
  decide

/-- C12, amended: for a board whose cells are all walls except for a single
piece `'0'`, `find_solution` ends in the first round of its loop with the
frontier empty, the empty path and `has_won` set, since the map holds no
target. -/
theorem all_walls_search (am : gate_t → Char → Char → gate_t) (init : gate_t)
    (hwalls : all_walls_but_piece init) (fuel : Nat) :
    ∃ r, find_solution am init (fuel + 1) = some r ∧ r.frontier = [] ∧ r.soln = [] ∧
      r.has_won = true := by
  have hspec : winning_spec init := by
    apply winning_spec_of_all
    intro row hrow c hc
    rcases hwalls.1 row hrow c hc with h | h <;> rw [h] <;> decide
  exact ⟨make_report init [] true (first_round_exit init),
    find_solution_first_round am init hspec fuel, rfl, rfl, rfl⟩

/-- The hypothesis of `all_walls_search` holds for the 3 x 3 board of walls
around piece `'0'`. -/
theorem all_walls_search_witness :
    all_walls_but_piece board_all_walls ∧
    ∃ r, find_solution attempt_move board_all_walls 1 = some r ∧ r.frontier = [] ∧
      r.soln = [] ∧ r.has_won = true :=
  ⟨by decide, all_walls_search attempt_move board_all_walls (by decide) 0⟩

/-! ## The generated counter -/

theorem length_index_pairs (np : Int) : (index_pairs np).length = 4 * np.toNat := by
  unfold index_pairs
  generalize np.toNat = n
  induction n with
  | zero => rfl
  | succ n ih =>
    rw [List.range_succ, List.flatMap_append, List.length_append, ih]
    simp
    omega

theorem foldl_try_move_enqueued (am : gate_t → Char → Char → gate_t) (n : gate_t)
    (ps : List (Nat × Nat)) (st : search_t) :
    (ps.foldl (fun acc pd => try_move am n acc pd.1 pd.2) st).enqueued =
        st.enqueued + ps.length ∧
    (ps.foldl (fun acc pd => try_move am n acc pd.1 pd.2) st).dequeued = st.dequeued := by
  induction ps generalizing st with
  | nil => simp
  | cons pd ps ih =>
    obtain ⟨h1, h2⟩ := ih (try_move am n st pd.1 pd.2)
    rw [List.foldl_cons, h1, h2, try_move_unfold]
    split <;> simp <;> omega

theorem search_loop_enqueued (am : gate_t → Char → Char → gate_t) (np : Int) (fuel : Nat)
    (st : search_t) (res : List Char × Bool × search_t)
    (h : search_loop am np fuel st = some res) :
    res.2.2.enqueued = st.enqueued + attempt_calls am np fuel st := by
  induction fuel generalizing st with
  | zero => simp [search_loop] at h
  | succ fuel ih =>
    unfold search_loop at h
    unfold attempt_calls
    split at h
    · rename_i r hr
      simp only [Option.some.injEq] at h
      subst h
      unfold loop_iter at hr
      unfold calls_in_round
      split at hr
      · rename_i hq
        simp only [Sum.inl.injEq] at hr
        subst hr
        simp [hq]
      · rename_i n rest hq
        split at hr
        · rename_i hwin
          simp only [Sum.inl.injEq] at hr
          subst hr
          simp [hq, hwin]
        · exact absurd hr (by simp)
    · rename_i st2 hst2
      rw [ih st2 h]
      unfold loop_iter at hst2
      unfold calls_in_round
      split at hst2
      · exact absurd hst2 (by simp)
      · rename_i n rest hq
        split at hst2
        · exact absurd hst2 (by simp)
        · rename_i hwin
          simp only [Sum.inr.injEq] at hst2
          subst hst2
          rw [expand_eq_foldl, (foldl_try_move_enqueued am n _ _).1]
          simp [hq, hwin]
          omega

/-- C14, as stated, fails: on the board `0G` the search stops after 16 calls of
`attempt_move` and reports 17 generated nodes; on the board `0 `, which is won
at the start, it reports 1 generated node without any call. -/
theorem generated_counts_initial :
    (find_solution attempt_move board_0G 5).map (fun r => r.enqueued) = some 17 ∧
    attempt_calls attempt_move board_0G.num_pieces 5 (init_search board_0G) = 16 ∧
    (find_solution attempt_move board_won 1).map (fun r => r.enqueued) = some 1 ∧
    attempt_calls attempt_move board_won.num_pieces 1 (init_search board_won) = 0 := by
  decide

/-- C14, amended: the generated-nodes count that `find_solution` reports is 1,
for the initial state, plus the number of calls of `attempt_move` made during the
search (one per (piece, direction) pair on each expanded, non-winning state,
whether the successor was kept or not). -/
theorem generated_count (am : gate_t → Char → Char → gate_t) (init : gate_t) (fuel : Nat)
    (r : report_t) (hr : find_solution am init fuel = some r) :
    r.enqueued = 1 + attempt_calls am init.num_pieces fuel (init_search init) := by
  unfold find_solution at hr
  split at hr
  · simp at hr
  · rename_i soln won st3 hloop
    simp only [Option.some.injEq] at hr
    subst hr
    have h := search_loop_enqueued am init.num_pieces fuel _ (soln, won, st3) hloop
    simp only at h
    simp only [make_report, h]
    simp [init_search, enqueue_state]

theorem run_board_0G_enqueued :
    (find_solution attempt_move board_0G 5).map (fun r => r.enqueued) = some 17 := by
  decide

/-- The hypothesis of `generated_count` holds for the search on the board `0G`,
which stops in its fifth round. -/
theorem generated_count_witness :
    ∃ r, find_solution attempt_move board_0G 5 = some r ∧
      r.enqueued = 1 + attempt_calls attempt_move board_0G.num_pieces 5 (init_search board_0G) := by
  have h := run_board_0G_enqueued
  cases hr : find_solution attempt_move board_0G 5 with
  | none => rw [hr] at h; simp at h
  | some r => exact ⟨r, rfl, generated_count attempt_move board_0G 5 r hr⟩

/-! ## The order of expansion -/

theorem pairwise_index_pairs (np : Int) : List.Pairwise pair_lt (index_pairs np) := by
  unfold index_pairs
  rw [List.pairwise_flatMap]
  constructor
  · intro p _
    rw [List.pairwise_map]
    exact List.Pairwise.imp (fun {a b} (h : a < b) => Or.inr ⟨rfl, h⟩) (List.pairwise_lt_range 4)
  · refine List.Pairwise.imp ?_ (List.pairwise_lt_range np.toNat)
    intro p q hpq x hx y hy
    simp only [List.mem_map] at hx hy
    obtain ⟨_, _, rfl⟩ := hx
    obtain ⟨_, _, rfl⟩ := hy
    exact Or.inl hpq

/-- The states that an expansion appends belong, in order, to a subsequence of
the index pairs tried. -/
theorem foldl_try_move_sublist (am : gate_t → Char → Char → gate_t) (n : gate_t)
    (ps : List (Nat × Nat)) (st : search_t) :
    ∃ kept : List (Nat × Nat × Nat),
      (ps.foldl (fun acc pd => try_move am n acc pd.1 pd.2) st).queue =
        st.queue ++ kept.map (fun x => successor am n x.1 x.2.1 x.2.2) ∧
      List.Sublist (kept.map Prod.snd) ps := by
  induction ps generalizing st with
  | nil => exact ⟨[], by simp, List.Sublist.slnil⟩
  | cons pd ps ih =>
    obtain ⟨kept, hq, hsub⟩ := ih (try_move am n st pd.1 pd.2)
    rw [List.foldl_cons, hq, try_move_unfold]
    split
    · exact ⟨kept, rfl, List.Sublist.cons _ hsub⟩
    · refine ⟨(st.next, pd) :: kept, by simp, ?_⟩
      simp only [List.map_cons]
      exact List.Sublist.cons₂ _ hsub

/-- C16: an expansion tries the (piece, direction) pairs in ascending order of
the piece index and, for one piece, in the order `u`, `d`, `l`, `r` of
`directions`, and the successors it links into the queue stand there in that
order: of two successors of the same parent the one with the smaller pair comes
first. -/
theorem expansion_order (am : gate_t → Char → Char → gate_t) (np : Int) (n : gate_t)
    (st : search_t) :
    expand am np n st =
      (index_pairs np).foldl (fun acc pd => try_move am n acc pd.1 pd.2) st ∧
    List.Pairwise pair_lt (index_pairs np) ∧
    (∀ pd, pd ∈ index_pairs np ↔ pd.1 < np.toNat ∧ pd.2 < 4) ∧
    directions = ['u', 'd', 'l', 'r'] ∧
    ∃ kept : List (Nat × Nat × Nat),
      (expand am np n st).queue =
        st.queue ++ kept.map (fun x => successor am n x.1 x.2.1 x.2.2) ∧
      List.Pairwise pair_lt (kept.map Prod.snd) ∧
      ∀ x ∈ kept, x.2 ∈ index_pairs np := by
  refine ⟨expand_eq_foldl am np n st, pairwise_index_pairs np, mem_index_pairs np, rfl, ?_⟩
  obtain ⟨kept, hq, hsub⟩ := foldl_try_move_sublist am n (index_pairs np) st
  refine ⟨kept, by rw [expand_eq_foldl, hq], (pairwise_index_pairs np).sublist hsub, ?_⟩
  intro x hx
  exact hsub.subset (List.mem_map_of_mem _ hx)

/-! ## The bits that `packMap` writes -/

theorem pack_field_log_spec (v : Int) (nbits : Int) (s : List Bool × Nat) (log : List Nat) :
    pack_field_log v nbits (s, log) =
      (pack_field v nbits s, log ++ (List.range nbits.toNat).map (fun j => s.2 + j)) := by
  unfold pack_field_log pack_field
  generalize nbits.toNat = n
  induction n with
  | zero => simp
  | succ n ih =>
    rw [List.range_succ, List.foldl_append, List.foldl_append, ih]
    have hidx := (pack_field_spec v (n : Int) s.1 s.2).1
    unfold pack_field at hidx
    simp only [Int.toNat_ofNat] at hidx
    simp only [List.foldl_cons, List.foldl_nil, List.map_append, List.map_cons, List.map_nil,
      hidx]
    split <;> simp

theorem pack_piece_log_spec (gate : gate_t) (pB hB wB : Int) (s : List Bool × Nat)
    (log : List Nat) (i : Nat) :
    pack_piece_log gate pB hB wB (s, log) i =
      (pack_piece gate pB hB wB s i,
       log ++ (List.range (pB.toNat + hB.toNat + wB.toNat)).map (fun j => s.2 + j)) := by
  unfold pack_piece_log pack_piece
  rw [pack_field_log_spec, pack_field_log_spec, pack_field_log_spec]
  have h1 := (pack_field_spec (i : Int) pB s.1 s.2).1
  have h2 := (pack_field_spec (int_at gate.piece_y i) hB
    (pack_field (i : Int) pB s).1 (pack_field (i : Int) pB s).2).1
  simp only [Prod.mk.eta] at h1 h2
  rw [h2, h1]
  congr 1
  rw [List.append_assoc, List.append_assoc]
  congr 1
  rw [List.range_add, List.range_add, List.map_append, List.map_append, List.map_map,
    List.map_map, List.append_assoc]
  congr 1
  · congr 1
    · apply List.map_congr_left; intro j _; simp only [Function.comp]; omega
    · apply List.map_congr_left; intro j _; simp only [Function.comp]; omega

theorem pack_pieces_log_spec (gate : gate_t) (pB hB wB : Int) (buf : List Bool) (n : Nat) :
    (List.range n).foldl (pack_piece_log gate pB hB wB) ((buf, 0), []) =
      ((List.range n).foldl (pack_piece gate pB hB wB) (buf, 0),
       List.range (n * (pB.toNat + hB.toNat + wB.toNat))) := by
  induction n with
  | zero => simp
  | succ n ih =>
    rw [List.range_succ, List.foldl_append, List.foldl_append, ih]
    simp only [List.foldl_cons, List.foldl_nil]
    rw [pack_piece_log_spec, (pack_pieces_spec gate pB hB wB buf n).1, Nat.succ_mul]
    congr 1
    exact (List.range_add _ _).symm

theorem packMap_log_spec (calcBits : Int → Int) (gate : gate_t) (buf : List Bool) :
    packMap_log calcBits gate buf =
      (packMap calcBits gate buf,
       List.range (gate.num_pieces.toNat * atomBits calcBits gate)) := by
  unfold packMap_log packMap
  simp only [pack_pieces_log_spec]
  rfl

/-- Below the bound the bits after `packMap` do not depend on the buffer. -/
theorem packMap_low_bits (calcBits : Int → Int) (gate : gate_t) (buf buf2 : List Bool)
    (hlen : buf2.length = buf.length) (t : Nat)
    (ht : t < gate.num_pieces.toNat * atomBits calcBits gate) :
    (packMap calcBits gate buf)[t]? = (packMap calcBits gate buf2)[t]? := by
  obtain ⟨hl1, hb1, _⟩ := packMap_spec calcBits gate buf
  obtain ⟨hl2, hb2, _⟩ := packMap_spec calcBits gate buf2
  by_cases hin : t < buf.length
  · have hA : 0 < atomBits calcBits gate := by
      rcases Nat.eq_zero_or_pos (atomBits calcBits gate) with h | h
      · rw [h] at ht; simp at ht
      · exact h
    have hdiv : t / atomBits calcBits gate < gate.num_pieces.toNat :=
      Nat.div_lt_of_lt_mul (by rw [Nat.mul_comm]; exact ht)
    have hmod : t % atomBits calcBits gate < atomBits calcBits gate := Nat.mod_lt _ hA
    have hsplit : t / atomBits calcBits gate * atomBits calcBits gate +
        t % atomBits calcBits gate = t := by
      rw [Nat.mul_comm]; exact Nat.div_add_mod t _
    have e1 := hb1 _ _ hdiv hmod (by rw [hsplit]; exact hin)
    have e2 := hb2 _ _ hdiv hmod (by rw [hsplit, hlen]; exact hin)
    rw [hsplit] at e1 e2
    rw [e1, e2]
  · rw [List.getElem?_eq_none (by rw [hl1]; omega), List.getElem?_eq_none (by rw [hl2]; omega)]

/-- C18: `packMap` hands to `bitOn` or `bitOff` the bit indices
`0, 1, ..., num_pieces * (pBits + hBits + wBits) - 1`, each once and no other;
after the call the bits below that bound are the same for every previous
content of the buffer, and every bit at or above the bound is as before. -/
theorem key_buffer_reusable (calcBits : Int → Int) (gate : gate_t) (buf : List Bool) :
    (packMap_log calcBits gate buf).1 = packMap calcBits gate buf ∧
    (packMap_log calcBits gate buf).2 =
      List.range (gate.num_pieces.toNat * atomBits calcBits gate) ∧
    (∀ buf2 : List Bool, buf2.length = buf.length →
      ∀ t, t < gate.num_pieces.toNat * atomBits calcBits gate →
        (packMap calcBits gate buf)[t]? = (packMap calcBits gate buf2)[t]?) ∧
    (∀ t, gate.num_pieces.toNat * atomBits calcBits gate ≤ t →
      (packMap calcBits gate buf)[t]? = buf[t]?) := by
  refine ⟨by rw [packMap_log_spec], by rw [packMap_log_spec], ?_, (packMap_spec calcBits gate buf).2.2⟩
  intro buf2 hlen t ht
  exact packMap_low_bits calcBits gate buf buf2 hlen t ht

/-! ## The first winning sequence of its level -/

theorem path_lt_snoc (v w : List (Char × Char)) (m m2 : Char × Char) (h : path_lt v w) :
    path_lt (v ++ [m]) (w ++ [m2]) := by
  induction v generalizing w with
  | nil => cases w <;> simp [path_lt] at h
  | cons a v ih =>
    cases w with
    | nil => simp [path_lt] at h
    | cons b w =>
      simp only [path_lt, List.cons_append] at h ⊢
      rcases h with h | ⟨h1, h2⟩
      · exact Or.inl h
      · exact Or.inr ⟨h1, ih w h2⟩

theorem path_lt_snoc_same (v : List (Char × Char)) (m m2 : Char × Char) (h : move_lt m m2) :
    path_lt (v ++ [m]) (v ++ [m2]) := by
  induction v with
  | nil => exact Or.inl h
  | cons a v ih => exact Or.inr ⟨rfl, ih⟩

theorem pairwise_words (M : List (Char × Char)) (hM : List.Pairwise move_lt M) (k : Nat) :
    List.Pairwise path_lt (words M k) := by
  induction k with
  | zero => simp [words]
  | succ k ih =>
    simp only [words]
    rw [List.pairwise_flatMap]
    constructor
    · intro w _
      unfold extend
      rw [List.pairwise_map]
      exact hM.imp (fun {a b} h => path_lt_snoc_same w a b h)
    · refine ih.imp ?_
      intro v w hvw x hx y hy
      simp only [extend, List.mem_map] at hx hy
      obtain ⟨m, _, rfl⟩ := hx
      obtain ⟨m2, _, rfl⟩ := hy
      exact path_lt_snoc v w m m2 hvw

theorem move_lt_move_of (a b : Nat × Nat) (ha1 : a.1 < 10) (hb1 : b.1 < 10) (ha2 : a.2 < 4)
    (hb2 : b.2 < 4) (h : pair_lt a b) : move_lt (move_of a) (move_of b) := by
  have hp : ∀ p, p < 10 → pieceNames.indexOf (pieceNames.getD p NUL) = p := by decide
  have hd : ∀ d, d < 4 → directions.indexOf (directions.getD d NUL) = d := by decide
  unfold move_lt move_of
  simp only [hp a.1 ha1, hp b.1 hb1, hd a.2 ha2, hd b.2 hb2]
  exact h

theorem pairwise_moves (np : Int) (hnp : np ≤ 10) : List.Pairwise move_lt (moves np) := by
  rw [moves_eq_map, List.pairwise_map]
  refine (pairwise_index_pairs np).imp_of_mem ?_
  intro a b ha hb hab
  obtain ⟨ha1, ha2⟩ := (mem_index_pairs np a).1 ha
  obtain ⟨hb1, hb2⟩ := (mem_index_pairs np b).1 hb
  exact move_lt_move_of a b (by omega) (by omega) ha2 hb2 hab

/-- C20: with at most 10 pieces, the path of `k` moves that `find_solution`
reports is the least, in the lexicographic order by piece index and then by the
order `u`, `d`, `l`, `r`, among the sequences of `k` moves whose replay from the
initial board reaches a winning state. -/
theorem tie_breaking (am : gate_t → Char → Char → gate_t) (hok : engine_ok am)
    (init : gate_t) (hinit : well_formed init) (hnp : init.num_pieces ≤ 10)
    (fuel : Nat) (r : report_t)
    (hr : find_solution am init fuel = some r) (hwon : r.has_won = true)
    (v : List (Char × Char)) (hlen : v.length = r.steps)
    (hv : ∀ m ∈ v, m.1 ∈ pieceNames.take init.num_pieces.toNat ∧ m.2 ∈ directions)
    (hwin : winning_state (replay am init v) = true) :
    path_le (parse_path r.soln) v := by
  obtain ⟨res, hfacts, rfl⟩ := find_solution_exit am hok init hinit fuel r hr
  rcases hfacts with ⟨_, k, pre, w, post, hw, hs, _, hpre, _⟩ | ⟨hf, _⟩
  · have hwk : w.length = k := mem_words_length _ k w (by rw [hw]; simp)
    have hsteps : (make_report init res.1 res.2.1 res.2.2).steps = k := by
      simp only [make_report, hs, length_path_str]; omega
    have hpath : parse_path (make_report init res.1 res.2.1 res.2.2).soln = w := by
      simp only [make_report, hs, parse_path_str]
    rw [hsteps] at hlen
    rw [hpath]
    have hmem : v ∈ words (moves init.num_pieces) k := by
      rw [← hlen]
      exact mem_words_of_forall _ v (fun m hm => mem_moves _ m (hv m hm).1 (hv m hm).2)
    have hsorted := pairwise_words _ (pairwise_moves init.num_pieces hnp) k
    rw [hw] at hmem hsorted
    rcases List.mem_append.1 hmem with h | h
    · have := hpre v h
      rw [hwin] at this
      exact absurd this (by simp)
    · rcases List.mem_cons.1 h with h | h
      · exact Or.inl h.symm
      · have h2 := (List.pairwise_append.1 hsorted).2.1
        exact Or.inr ((List.pairwise_cons.1 h2).1 v h)
  · simp [make_report, hf] at hwon

theorem run_board_corner :
    (find_solution attempt_move board_corner 20).map (fun r => (r.soln, r.has_won, r.steps)) =
      some (['0', 'd', '0', 'r'], true, 2) := by
  decide

/-- The hypotheses of `tie_breaking` hold on the 2 x 2 board with the target
opposite to the piece: the search prints `0d0r`, and `0r0d` wins as well. -/
theorem tie_breaking_witness :
    engine_ok attempt_move ∧ well_formed board_corner ∧ board_corner.num_pieces ≤ 10 ∧
    ∃ r, find_solution attempt_move board_corner 20 = some r ∧ r.has_won = true ∧
      r.soln = ['0', 'd', '0', 'r'] ∧
      [('0', 'r'), ('0', 'd')].length = r.steps ∧
      (∀ m ∈ [('0', 'r'), ('0', 'd')],
        m.1 ∈ pieceNames.take board_corner.num_pieces.toNat ∧ m.2 ∈ directions) ∧
      winning_state (replay attempt_move board_corner [('0', 'r'), ('0', 'd')]) = true ∧
      path_le (parse_path r.soln) [('0', 'r'), ('0', 'd')] := by
  refine ⟨attempt_move_ok, by decide, by decide, ?_⟩
  have h := run_board_corner
  cases hr : find_solution attempt_move board_corner 20 with
  | none => rw [hr] at h; simp at h
  | some r =>
    rw [hr] at h
    simp only [Option.map_some', Option.some.injEq, Prod.mk.injEq] at h
    have hlen : [('0', 'r'), ('0', 'd')].length = r.steps := by rw [h.2.2]; rfl
    exact ⟨r, rfl, h.2.1, h.1, hlen, by decide, by decide,
      tie_breaking attempt_move attempt_move_ok board_corner (by decide) (by decide) 20 r hr
        h.2.1 [('0', 'r'), ('0', 'd')] hlen (by decide) (by decide)⟩

/-! ## The linked queue is first in, first out -/

theorem chain_store_fresh (nodes : Nat → Option qnode) (a : Nat) (nd : qnode)
    (p : Option Nat) (cells : List (Nat × gate_t)) (hfresh : ∀ c ∈ cells, c.1 ≠ a)
    (h : chain nodes p cells) : chain (store_node nodes a nd) p cells := by
  induction cells generalizing p with
  | nil => exact h
  | cons c cs ih =>
    obtain ⟨hp, nx, hn, hc⟩ := h
    refine ⟨hp, nx, ?_, ih nx (fun x hx => hfresh x (List.mem_cons_of_mem _ hx)) hc⟩
    simp only [store_node, hfresh c (List.mem_cons_self _ _), if_false]
    exact hn

theorem chain_free_fresh (nodes : Nat → Option qnode) (a : Nat)
    (p : Option Nat) (cells : List (Nat × gate_t)) (hfresh : ∀ c ∈ cells, c.1 ≠ a)
    (h : chain nodes p cells) : chain (free_node nodes a) p cells := by
  induction cells generalizing p with
  | nil => exact h
  | cons c cs ih =>
    obtain ⟨hp, nx, hn, hc⟩ := h
    refine ⟨hp, nx, ?_, ih nx (fun x hx => hfresh x (List.mem_cons_of_mem _ hx)) hc⟩
    simp only [free_node, hfresh c (List.mem_cons_self _ _), if_false]
    exact hn

/-- Linking a fresh node behind the last node of a chain. -/
theorem chain_snoc (nodes : Nat → Option qnode) (a t : Nat) (s s2 : gate_t)
    (p : Option Nat) (cells : List (Nat × gate_t))
    (hat : t ≠ a) (hfresh : ∀ c ∈ cells, c.1 ≠ a) (hnodup : ∀ c ∈ cells, c.1 ≠ t)
    (h : chain nodes p (cells ++ [(t, s)])) :
    chain
      (store_node (store_node nodes a { state := s2, next := none }) t
        { state := s, next := some a })
      p (cells ++ [(t, s), (a, s2)]) := by
  induction cells generalizing p with
  | nil =>
    obtain ⟨hp, nx, _, _⟩ := h
    refine ⟨hp, some a, by simp [store_node], rfl, none, ?_, rfl⟩
    simp [store_node, hat.symm]
  | cons c cs ih =>
    obtain ⟨hp, nx, hn, hc⟩ := h
    refine ⟨hp, nx, ?_, ih nx (fun x hx => hfresh x (List.mem_cons_of_mem _ hx))
      (fun x hx => hnodup x (List.mem_cons_of_mem _ hx)) hc⟩
    simp only [store_node, hnodup c (List.mem_cons_self _ _),
      hfresh c (List.mem_cons_self _ _), if_false]
    exact hn

theorem chain_last (nodes : Nat → Option qnode) (t : Nat) (s : gate_t)
    (p : Option Nat) (cells : List (Nat × gate_t)) (h : chain nodes p (cells ++ [(t, s)])) :
    nodes t = some { state := s, next := none } := by
  induction cells generalizing p with
  | nil =>
    obtain ⟨_, nx, hn, hc⟩ := h
    have : nx = none := hc
    rw [hn, this]
  | cons c cs ih =>
    obtain ⟨_, nx, _, hc⟩ := h
    exact ih nx hc

theorem queue_inv_empty (next : Nat) : queue_inv empty_queue next [] :=
  ⟨[], rfl, rfl, rfl, List.nodup_nil, by simp⟩

theorem queue_inv_enqueue (q : queue_t) (next : Nat) (l : List gate_t) (s : gate_t)
    (h : queue_inv q next l) :
    queue_inv (enqueue_node s (some next) q) (next + 1) (l ++ [s]) := by
  obtain ⟨cells, hl, hch, htail, hnd, hlt⟩ := h
  have hfresh : ∀ c ∈ cells, c.1 ≠ next := fun c hc => Nat.ne_of_lt (hlt c hc)
  rcases List.eq_nil_or_concat cells with hnil | ⟨cs, c, hcs⟩
  · subst hnil
    simp only [List.getLast?_nil, Option.map_none'] at htail
    have hhead : q.queue_head = none := hch
    refine ⟨[(next, s)], by simp [← hl], ?_, ?_, by simp, by simp⟩
    · simp only [enqueue_node, htail]
      exact ⟨rfl, none, by simp [store_node], rfl⟩
    · simp [enqueue_node, htail]
  · subst hcs
    obtain ⟨t, s0⟩ := c
    simp only [List.concat_eq_append] at *
    have htail2 : q.queue_tail = some t := by simpa using htail
    have hat : t ≠ next := hfresh (t, s0) (by simp)
    have hnd2 : ∀ x ∈ cs, x.1 ≠ t := by
      intro x hx hxt
      rw [List.map_append, List.nodup_append] at hnd
      exact hnd.2.2 (List.mem_map_of_mem Prod.fst hx) (by simp [hxt])
    have hlast := chain_last q.nodes t s0 q.queue_head cs hch
    have hnodes1 : store_node q.nodes next { state := s, next := none } t =
        some { state := s0, next := none } := by
      simp only [store_node, hat, if_false]
      exact hlast
    refine ⟨cs ++ [(t, s0), (next, s)], by simp [← hl], ?_, ?_, ?_, ?_⟩
    · simp only [enqueue_node, htail2, hnodes1]
      exact chain_snoc q.nodes next t s0 s q.queue_head cs hat
        (fun x hx => hfresh x (List.mem_append_left _ hx)) hnd2 hch
    · simp [enqueue_node, htail2]
    · have : cs ++ [(t, s0), (next, s)] = (cs ++ [(t, s0)]) ++ [(next, s)] := by simp
      rw [this, List.map_append, List.nodup_append]
      refine ⟨hnd, by simp, ?_⟩
      intro x hx1 hx2
      simp only [List.map_cons, List.map_nil, List.mem_singleton] at hx2
      obtain ⟨c, hc, rfl⟩ := List.mem_map.1 hx1
      exact hfresh c hc hx2
    · intro c hc
      simp only [List.mem_append, List.mem_cons, List.mem_singleton, List.not_mem_nil,
        or_false] at hc
      rcases hc with h1 | h1 | h1
      · exact Nat.lt_succ_of_lt (hlt c (List.mem_append_left _ h1))
      · rw [h1]; exact Nat.lt_succ_of_lt (hlt (t, s0) (by simp))
      · rw [h1]; exact Nat.lt_succ_self _

theorem queue_inv_nil_iff (q : queue_t) (next : Nat) (l : List gate_t)
    (h : queue_inv q next l) :
    (l = [] ↔ q.queue_head = none) ∧ (l = [] ↔ q.queue_tail = none) := by
  obtain ⟨cells, hl, hch, htail, _, _⟩ := h
  cases cells with
  | nil =>
    have hh : q.queue_head = none := hch
    simp only [List.map_nil] at hl
    simp [← hl, hh, htail]
  | cons c cs =>
    obtain ⟨hp, _⟩ := hch
    have hne : (c :: cs).getLast?.map Prod.fst ≠ none := by
      rw [List.getLast?_eq_getLast _ (List.cons_ne_nil _ _)]
      simp
    rw [← htail] at hne
    simp only [List.map_cons] at hl
    simp [← hl, hp, hne]

theorem queue_inv_dequeue_none (q : queue_t) (next : Nat) (l : List gate_t)
    (h : queue_inv q next l) (hd : dequeue_node q = none) : l = [] := by
  obtain ⟨cells, hl, hch, _, _, _⟩ := h
  cases cells with
  | nil => simpa using hl.symm
  | cons c cs =>
    obtain ⟨hp, nx, hn, _⟩ := hch
    simp [dequeue_node, hp, hn] at hd

theorem queue_inv_dequeue (q : queue_t) (next : Nat) (l : List gate_t)
    (h : queue_inv q next l) (r : gate_t × queue_t) (hd : dequeue_node q = some r) :
    ∃ l2, l = r.1 :: l2 ∧ queue_inv r.2 next l2 := by
  obtain ⟨cells, hl, hch, htail, hnd, hlt⟩ := h
  cases cells with
  | nil =>
    have hh : q.queue_head = none := hch
    simp [dequeue_node, hh] at hd
  | cons c cs =>
    obtain ⟨hp, nx, hn, hc⟩ := hch
    simp only [dequeue_node, hp, hn, Option.some.injEq] at hd
    subst hd
    simp only [List.map_cons, List.nodup_cons] at hnd
    have hfresh : ∀ x ∈ cs, x.1 ≠ c.1 := by
      intro x hx hxc
      exact hnd.1 (by rw [← hxc]; exact List.mem_map_of_mem Prod.fst hx)
    refine ⟨cs.map Prod.snd, by simp [← hl], cs, rfl, ?_, ?_, hnd.2,
      fun x hx => hlt x (List.mem_cons_of_mem _ hx)⟩
    · exact chain_free_fresh q.nodes c.1 nx cs hfresh hc
    · cases cs with
      | nil =>
        have hnx : nx = none := hc
        simp [hnx]
      | cons c2 cs2 =>
        obtain ⟨hnx, _⟩ := hc
        simp only [hnx, if_false, htail]
        rw [List.getLast?_cons_cons]
        simp

theorem run_ops_inv (ops : List queue_op) (q : queue_t) (next : Nat) (out l : List gate_t)
    (h : queue_inv q next l) :
    ∃ l2, queue_inv (run_ops ops (q, next, out)).1 (run_ops ops (q, next, out)).2.1 l2 ∧
      (run_ops ops (q, next, out)).2.2 ++ l2 = out ++ l ++ enqueued_states ops ∧
      run_list ops (l, out) = (l2, (run_ops ops (q, next, out)).2.2) := by
  induction ops generalizing q next out l with
  | nil => exact ⟨l, h, by simp [run_ops, enqueued_states], rfl⟩
  | cons op ops ih =>
    cases op with
    | enq s =>
      obtain ⟨l2, h1, h2, h3⟩ := ih (enqueue_node s (some next) q) (next + 1) out (l ++ [s])
        (queue_inv_enqueue q next l s h)
      refine ⟨l2, h1, ?_, h3⟩
      show (run_ops ops (enqueue_node s (some next) q, next + 1, out)).2.2 ++ l2 = _
      rw [h2]
      simp [enqueued_states]
    | deq =>
      simp only [run_ops, enqueued_states]
      cases hd : dequeue_node q with
      | none =>
        have hl : l = [] := queue_inv_dequeue_none q next l h hd
        subst hl
        exact ih q next out [] h
      | some r =>
        obtain ⟨l3, hl3, hinv⟩ := queue_inv_dequeue q next l h r hd
        obtain ⟨l2, h1, h2, h3⟩ := ih r.2 next (out ++ [r.1]) l3 hinv
        subst hl3
        exact ⟨l2, h1, by rw [h2]; simp, h3⟩

/-- C15: for every sequence of calls of `enqueue_state` and removals of the
head, run from the empty queue, the linked queue hands out the same states as
the list that is appended to at the end and read from the front; the states
come out in the order in which they went in (the dequeued states are the first
ones of the enqueued states); and `queue_head` and `queue_tail` are both NULL
exactly when every enqueued state has been dequeued. -/
theorem queue_fifo (ops : List queue_op) (next : Nat) :
    (run_ops ops (empty_queue, next, [])).2.2 = (run_list ops ([], [])).2 ∧
    (run_ops ops (empty_queue, next, [])).2.2 =
      (enqueued_states ops).take (run_ops ops (empty_queue, next, [])).2.2.length ∧
    (((run_ops ops (empty_queue, next, [])).1.queue_head = none ∧
        (run_ops ops (empty_queue, next, [])).1.queue_tail = none) ↔
      (run_ops ops (empty_queue, next, [])).2.2.length = (enqueued_states ops).length) ∧
    ((run_ops ops (empty_queue, next, [])).1.queue_head = none ↔
      (run_ops ops (empty_queue, next, [])).1.queue_tail = none) := by
  obtain ⟨l2, hinv, hout, hlist⟩ :=
    run_ops_inv ops empty_queue next [] [] (queue_inv_empty next)
  obtain ⟨hhead, htail⟩ := queue_inv_nil_iff _ _ l2 hinv
  simp only [List.nil_append] at hout
  rw [hlist]
  generalize run_ops ops (empty_queue, next, []) = r at *
  refine ⟨rfl, ?_, ?_, ?_⟩
  · rw [← hout]; simp
  · have hlen : r.2.2.length = (enqueued_states ops).length ↔ l2 = [] := by
      rw [← hout, List.length_append]
      constructor
      · intro h; exact List.length_eq_zero.1 (by omega)
      · intro h; simp [h]
    rw [hlen]
    constructor
    · intro h; exact hhead.2 h.1
    · intro h; exact ⟨hhead.1 h, htail.1 h⟩
  · rw [← hhead, ← htail]

end Ai
